import Mathlib

/-!
Shallow embedding of the document-conversion core of `remarkable-sync`
(package `convert`): the reverse-direction text cleanup
(`cleanupMarkdownText`), the forward markdown renderer walk
(`processMarkdown`), and the markdown-assembly part of `PDFToMarkdown`.

Lines of text are modelled as `List Char`; a whole text is a `String`
split on `'\n'` exactly as Go's `strings.Split(text, "\n")` does.
Go's `strings.Repeat` panics on a negative count, so functions that can
reach it return `Option`, with `none` standing for the panic.
-/

namespace RemarkableSync

/-- One line of text, as a character list (Go strings are processed here
only through whole-character operations). -/
abbrev Line := List Char

/-- Go's `unicode.IsSpace` restricted to the code points this pipeline
can meet: ASCII whitespace plus NEL and NBSP (the Latin-1 additions).
This is what `strings.TrimSpace` trims. -/
def goIsSpace (c : Char) : Bool :=
  c = ' ' || c = '\t' || c = '\n' || c = '\x0B' || c = '\x0C' || c = '\r' ||
  c = '\x85' || c = '\xA0'

/-- Go `strings.TrimSpace`: drop leading and trailing whitespace. -/
def goTrimSpace (l : Line) : Line :=
  ((l.dropWhile goIsSpace).reverse.dropWhile goIsSpace).reverse

/-- Go `strings.HasPrefix s pat`: `hasPfx s pat` is true when `s` starts
with `pat`. -/
def hasPfx : Line → Line → Bool
  | _, [] => true
  | [], _ :: _ => false
  | c :: cs, p :: ps => c = p && hasPfx cs ps

/-- Go `strings.Count(line, "#")`: number of `'#'` characters in the
line (a one-character pattern cannot overlap, so this is a plain count). -/
def countHash (l : Line) : Nat := l.countP (fun c => c = '#')

/-- Go `strings.TrimLeft(line, "#")`: drop the leading run of `'#'`. -/
def trimLeftHash (l : Line) : Line := l.dropWhile (fun c => c = '#')

/-- The fence marker prefix: three backticks. -/
def fenceMarker : Line := "```".data

/-- Go `strings.Split(text, "\n")` for a single-character separator:
always at least one piece, empty pieces kept. -/
def splitLines : List Char → List Line
  | [] => [[]]
  | c :: cs =>
    if c = '\n' then [] :: splitLines cs
    else
      match splitLines cs with
      | [] => [[c]]
      | l :: ls => (c :: l) :: ls

/-- Go `strings.Join(result, "\n")`. -/
def joinLines : List Line → List Char
  | [] => []
  | [l] => l
  | l :: l2 :: ls => l ++ '\n' :: joinLines (l2 :: ls)

/-- RE2 `\s`: `[\t\n\f\r ]` (the character class used by Go's regexp
for `^\d+\.\s`). -/
def isRegexSpace (c : Char) : Bool :=
  c = '\t' || c = '\n' || c = '\x0C' || c = '\r' || c = ' '

/-- Whether Go's regexp `^\d+\.\s` matches the line.  The greedy `\d+`
with maximal munch is equivalent to backtracking here: after a shorter
digit run the next character is still a digit, never `'.'`. -/
def matchesNumbered (l : Line) : Bool :=
  let ds := l.takeWhile Char.isDigit
  decide (ds ≠ []) &&
    (match l.drop ds.length with
     | c :: d :: _ => c = '.' && isRegexSpace d
     | _ => false)

/-- Go `strings.SplitN(line, ".", 2)`: `some (before, after)` split at
the first `'.'`, or `none` when the line has no dot (in Go: a
one-element split, which the code leaves unused). -/
def splitAtFirstDot : Line → Option (Line × Line)
  | [] => none
  | c :: cs =>
    if c = '.' then some ([], cs)
    else
      match splitAtFirstDot cs with
      | some (a, b) => some (c :: a, b)
      | none => none

/-- `MarkdownOptions` from the source (markdown generation config). -/
structure MarkdownOptions where
  HeaderLevelAdjust : Int
  AddFrontmatter : Bool
  CleanupText : Bool

/-- `DefaultMarkdownOptions` from the source. -/
def DefaultMarkdownOptions : MarkdownOptions :=
  { HeaderLevelAdjust := 1, AddFrontmatter := true, CleanupText := true }

/-- The line-processing loop of `cleanupMarkdownText`, a direct
translation of the Go `for` loop.  `result` is the accumulated output
slice, `inCodeBlock` the fence flag.  `none` models the panic of
`strings.Repeat("#", n)` for negative `n`. -/
def cleanupLoop (opts : MarkdownOptions) :
    List Line → Bool → List Line → Option (List Line)
  | result, _, [] => some result
  | result, inCodeBlock, rawLine :: rest =>
    let line := goTrimSpace rawLine
    if line = [] ∧ result ≠ [] ∧ result.getLast? = some [] then
      cleanupLoop opts result inCodeBlock rest
    else if hasPfx line fenceMarker then
      cleanupLoop opts (result ++ [line]) (!inCodeBlock) rest
    else if !inCodeBlock then
      if hasPfx line ['#'] then
        let headerLevel : Int := (countHash line : Int) + opts.HeaderLevelAdjust
        if headerLevel < 0 then none
        else
          cleanupLoop opts
            (result ++ [List.replicate headerLevel.toNat '#' ++
              ' ' :: goTrimSpace (trimLeftHash line)])
            inCodeBlock rest
      else if hasPfx line ['*', ' '] || hasPfx line ['-', ' '] then
        cleanupLoop opts (result ++ ['-' :: ' ' :: goTrimSpace (line.drop 2)])
          inCodeBlock rest
      else if matchesNumbered line then
        match splitAtFirstDot line with
        | some (p0, p1) =>
          cleanupLoop opts (result ++ [p0 ++ '.' :: goTrimSpace p1])
            inCodeBlock rest
        | none => cleanupLoop opts (result ++ [line]) inCodeBlock rest
      else
        cleanupLoop opts (result ++ [line]) inCodeBlock rest
    else
      cleanupLoop opts (result ++ [line]) inCodeBlock rest

/-- `cleanupMarkdownText` from the source: split on newlines, run the
loop with empty accumulator and fence flag off, join with newlines.
`none` models the `strings.Repeat` panic. -/
def cleanupMarkdownText (opts : MarkdownOptions) (text : String) :
    Option String :=
  (cleanupLoop opts [] false (splitLines text.data)).map
    (fun r => String.mk (joinLines r))

/-! ## Forward direction: `processMarkdown` -/

/-- `PDFOptions` from the source (pdf generation config).  Sizes are
modelled as rationals: every size the renderer computes (`16 - level`,
`FontSize`, `FontSize + 4`) is exact in binary floating point for the
values in play, so `ℚ` is a faithful model of the `float64` fields. -/
structure PDFOptions where
  Margins : ℚ
  FontSize : ℚ
  MainFont : String
  MonoFont : String
  PageSize : String
  ColorLinks : Bool
  TOC : Bool
  Highlight : Bool

/-- `DefaultPDFOptions` from the source. -/
def DefaultPDFOptions : PDFOptions :=
  { Margins := 20, FontSize := 11, MainFont := "Arial", MonoFont := "Courier",
    PageSize := "A4", ColorLinks := true, TOC := true, Highlight := true }

mutual
/-- The gomarkdown AST node shapes that `processMarkdown`'s switch
distinguishes.  `Text` and `CodeBlock` are leaves carrying their
literal; `Other` stands for any node kind with no case in the switch
(emphasis, lists' parents, etc.), whose children are still walked. -/
inductive MdNode where
  | Heading (Level : Nat) (children : MdNodes)
  | Text (Literal : String)
  | CodeBlock (Literal : String)
  | Link (children : MdNodes)
  | Paragraph (children : MdNodes)
  | ListBlock (children : MdNodes)
  | ListItem (children : MdNodes)
  | Document (children : MdNodes)
  | Other (children : MdNodes)

/-- An ordered sequence of AST nodes (children in source order). -/
inductive MdNodes where
  | nil
  | cons (head : MdNode) (tail : MdNodes)
end

/-- The draw/layout operations `processMarkdown` issues to the gofpdf
handle. -/
inductive PdfOp where
  | SetFont (family : String) (style : String) (size : ℚ)
  | SetFillColor (r g b : Nat)
  | SetTextColor (r g b : Nat)
  | MultiCell (txt : String) (fill : Bool)
  | Ln (h : ℚ)
  | Write (h : ℚ) (txt : String)
deriving DecidableEq

mutual
/-- The entering-callback of `ast.WalkFunc` in `processMarkdown`,
applied in pre-order: the operations emitted for one node and its
subtree, threading the `inCodeBlock` flag exactly as the Go closure
does (leaving-visits emit nothing and change nothing). -/
def walkNode (opts : PDFOptions) (inCode : Bool) :
    MdNode → List PdfOp × Bool
  | .Heading lvl cs =>
    let rec_ := walkNodes opts inCode cs
    (.SetFont opts.MainFont "B" (16 - (lvl : ℚ)) :: .Ln 5 :: rec_.1, rec_.2)
  | .Text lit =>
    -- dead branch kept faithfully: `inCodeBlock` is always false here,
    -- since the CodeBlock case clears it before returning
    if inCode then
      ([.SetFont opts.MonoFont "" opts.FontSize,
        .MultiCell lit (inCode && opts.Highlight),
        .SetFont opts.MainFont "" opts.FontSize], inCode)
    else
      ([.MultiCell lit (inCode && opts.Highlight)], inCode)
  | .CodeBlock lit =>
    -- inCodeBlock := true, emit, then inCodeBlock := false — all inside
    -- the entering callback of this leaf node
    (.SetFont opts.MonoFont "" opts.FontSize ::
      ((if opts.Highlight then [.SetFillColor 245 245 245] else []) ++
        [.MultiCell lit opts.Highlight,
         .SetFont opts.MainFont "" opts.FontSize]), false)
  | .Link cs =>
    let rec_ := walkNodes opts inCode cs
    ((if opts.ColorLinks then [.SetTextColor 0 0 255] else []) ++ rec_.1,
      rec_.2)
  | .Paragraph cs =>
    let rec_ := walkNodes opts inCode cs
    (.Ln 5 :: rec_.1, rec_.2)
  | .ListBlock cs =>
    let rec_ := walkNodes opts inCode cs
    (.Ln 3 :: rec_.1, rec_.2)
  | .ListItem cs =>
    let rec_ := walkNodes opts inCode cs
    (.Write 5 "â€¢ " :: rec_.1, rec_.2)
  | .Document cs => walkNodes opts inCode cs
  | .Other cs => walkNodes opts inCode cs

/-- Walk a child sequence in order, threading the flag. -/
def walkNodes (opts : PDFOptions) (inCode : Bool) :
    MdNodes → List PdfOp × Bool
  | .nil => ([], inCode)
  | .cons n ns =>
    let first := walkNode opts inCode n
    let rest := walkNodes opts first.2 ns
    (first.1 ++ rest.1, rest.2)
end

/-- `processMarkdown` from the source: initial `SetFont`, then the walk
over the parsed document.  The second component is the Go `error`
return value: the function body's only return statement is `return nil`,
and the gomarkdown `Parse` that produces `doc` returns a node with no
error result at all, so the error is always absent. -/
def processMarkdown (opts : PDFOptions) (doc : MdNode) :
    List PdfOp × Option String :=
  (PdfOp.SetFont opts.MainFont "" opts.FontSize :: (walkNode opts false doc).1,
    none)

/-- The yaml frontmatter block `PDFToMarkdown` writes when
`AddFrontmatter` is set (the date argument stands for
`time.Now().Format("2006-01-02")`). -/
def frontmatter (title date : String) : String :=
  "---\ntitle: " ++ title ++ "\nsource: remarkable\ndate: " ++ date ++
    "\n---\n\n"

/-- The content-assembly core of `PDFToMarkdown`: optional frontmatter,
then the extracted text, cleaned up only when `CleanupText` is set.
File opening, text extraction and file writing are external I/O around
this pure core. -/
def PDFToMarkdownContent (opts : MarkdownOptions) (title date : String)
    (extractedText : String) : Option String :=
  let fm := if opts.AddFrontmatter then frontmatter title date else ""
  (if opts.CleanupText then cleanupMarkdownText opts extractedText
   else some extractedText).map (fun body => fm ++ body)

/-! ## Helper lemmas about trimming and prefixes -/

theorem head?_dropWhile_false (p : Char → Bool) :
    ∀ (l : Line) {c : Char}, (l.dropWhile p).head? = some c → p c = false := by
  intro l
  induction l with
  | nil => intro c h; rw [List.dropWhile_nil] at h; exact Option.noConfusion h
  | cons a as ih =>
    intro c h
    rw [List.dropWhile_cons] at h
    cases hp : p a with
    | true => rw [hp] at h; simp at h; exact ih h
    | false =>
      rw [hp] at h
      simp at h
      rwa [← h]

theorem dropWhile_eq_self_of_head? (p : Char → Bool) (l : Line)
    (h : ∀ c, l.head? = some c → p c = false) : l.dropWhile p = l := by
  cases l with
  | nil => rfl
  | cons a as => rw [List.dropWhile_cons, h a rfl]; simp

theorem head?_eq_of_isPrefix {x y : Line} (h : x <+: y) (hx : x ≠ []) :
    y.head? = x.head? := by
  obtain ⟨t, rfl⟩ := h
  rw [List.head?_append]
  cases x with
  | nil => exact absurd rfl hx
  | cons a as => rfl

theorem reverse_dropWhile_reverse_prefix (p : Char → Bool) (l : Line) :
    (l.reverse.dropWhile p).reverse <+: l := by
  have h : l.reverse.dropWhile p <:+ l.reverse := List.dropWhile_suffix p
  have h2 := List.reverse_prefix.mpr h
  rwa [List.reverse_reverse] at h2

theorem goTrimSpace_head? (l : Line) {c : Char}
    (h : (goTrimSpace l).head? = some c) : goIsSpace c = false := by
  have hpfx := reverse_dropWhile_reverse_prefix goIsSpace (l.dropWhile goIsSpace)
  have hne : goTrimSpace l ≠ [] := by
    intro he; rw [he] at h; exact Option.noConfusion h
  have := head?_eq_of_isPrefix hpfx hne
  exact head?_dropWhile_false goIsSpace l (by rw [this]; exact h)

theorem goTrimSpace_getLast? (l : Line) {c : Char}
    (h : (goTrimSpace l).getLast? = some c) : goIsSpace c = false := by
  rw [show goTrimSpace l =
        ((l.dropWhile goIsSpace).reverse.dropWhile goIsSpace).reverse from rfl,
    List.getLast?_reverse] at h
  exact head?_dropWhile_false goIsSpace _ h

theorem goTrimSpace_idem (l : Line) :
    goTrimSpace (goTrimSpace l) = goTrimSpace l := by
  have h1 : (goTrimSpace l).dropWhile goIsSpace = goTrimSpace l :=
    dropWhile_eq_self_of_head? _ _ (fun _ hc => goTrimSpace_head? l hc)
  have h2 : (goTrimSpace l).reverse.dropWhile goIsSpace =
      (goTrimSpace l).reverse :=
    dropWhile_eq_self_of_head? _ _
      (fun _ hc => goTrimSpace_getLast? l (by rwa [List.head?_reverse] at hc))
  show (((goTrimSpace l).dropWhile goIsSpace).reverse.dropWhile
      goIsSpace).reverse = goTrimSpace l
  rw [h1, h2, List.reverse_reverse]

theorem mem_of_mem_goTrimSpace {c : Char} {l : Line}
    (h : c ∈ goTrimSpace l) : c ∈ l := by
  have h1 : c ∈ (l.dropWhile goIsSpace).reverse.dropWhile goIsSpace := by
    simpa [goTrimSpace] using h
  have h2 : c ∈ (l.dropWhile goIsSpace).reverse :=
    (List.dropWhile_suffix goIsSpace).subset h1
  have h3 : c ∈ l.dropWhile goIsSpace := by simpa using h2
  exact (List.dropWhile_suffix goIsSpace).subset h3

theorem hasPfx_ne_nil {l pat : Line} {p : Char} {ps : Line}
    (hpat : pat = p :: ps) (h : hasPfx l pat = true) : l ≠ [] := by
  intro he
  rw [he, hpat] at h
  exact Bool.noConfusion h

theorem hasPfx_cons_head {l : Line} {p c : Char} {cs ps : Line}
    (hl : l = c :: cs) (h : hasPfx l (p :: ps) = true) : c = p := by
  rw [hl] at h
  simp only [hasPfx, Bool.and_eq_true, decide_eq_true_eq] at h
  exact h.1

/-! ## Branch lemmas for `cleanupLoop` -/

theorem cleanupLoop_nil (opts : MarkdownOptions) (result : List Line)
    (inCode : Bool) : cleanupLoop opts result inCode [] = some result := by
  rw [cleanupLoop]

/-- The blank-collapse branch: a blank line after an emitted blank is
dropped. -/
theorem cleanupLoop_drop (opts : MarkdownOptions) (result : List Line)
    (inCode : Bool) (rawLine : Line) (rest : List Line)
    (hb : goTrimSpace rawLine = []) (hl : result.getLast? = some []) :
    cleanupLoop opts result inCode (rawLine :: rest) =
      cleanupLoop opts result inCode rest := by
  have hne : result ≠ [] := by
    intro he; rw [he] at hl; exact Option.noConfusion hl
  rw [cleanupLoop]
  simp only [hb, hl]
  simp [hne]

/-- A blank line not following an emitted blank is emitted as the empty
line, in either fence state. -/
theorem cleanupLoop_blank_emit (opts : MarkdownOptions) (result : List Line)
    (inCode : Bool) (rawLine : Line) (rest : List Line)
    (hb : goTrimSpace rawLine = []) (hl : result.getLast? ≠ some []) :
    cleanupLoop opts result inCode (rawLine :: rest) =
      cleanupLoop opts (result ++ [[]]) inCode rest := by
  rw [cleanupLoop]
  simp only [hb, hl]
  cases inCode <;> simp [hasPfx, fenceMarker, matchesNumbered]

/-- A fence-marker line toggles the fence flag and is emitted trimmed. -/
theorem cleanupLoop_fence (opts : MarkdownOptions) (result : List Line)
    (inCode : Bool) (rawLine : Line) (rest : List Line)
    (hf : hasPfx (goTrimSpace rawLine) fenceMarker = true) :
    cleanupLoop opts result inCode (rawLine :: rest) =
      cleanupLoop opts (result ++ [goTrimSpace rawLine]) (!inCode) rest := by
  have hne : goTrimSpace rawLine ≠ [] := hasPfx_ne_nil rfl hf
  rw [cleanupLoop]
  simp only [hne, hf]
  simp

/-- Inside a fence, a non-marker line is emitted trimmed, with no
reclassification (unless dropped as a repeated blank, covered by
`cleanupLoop_drop`). -/
theorem cleanupLoop_passthrough (opts : MarkdownOptions) (result : List Line)
    (rawLine : Line) (rest : List Line)
    (hf : hasPfx (goTrimSpace rawLine) fenceMarker = false)
    (hnd : ¬(goTrimSpace rawLine = [] ∧ result.getLast? = some [])) :
    cleanupLoop opts result true (rawLine :: rest) =
      cleanupLoop opts (result ++ [goTrimSpace rawLine]) true rest := by
  rw [cleanupLoop]
  simp only [hf]
  by_cases hb : goTrimSpace rawLine = []
  · have hl : ¬ result.getLast? = some [] := fun hc => hnd ⟨hb, hc⟩
    simp [hb, hl]
  · simp [hb]

/-- The heading branch, in the non-panicking case: level count plus
adjustment is non-negative. -/
theorem cleanupLoop_heading (opts : MarkdownOptions) (result : List Line)
    (rawLine : Line) (rest : List Line)
    (hh : hasPfx (goTrimSpace rawLine) ['#'] = true)
    (hk : 0 ≤ (countHash (goTrimSpace rawLine) : Int) + opts.HeaderLevelAdjust) :
    cleanupLoop opts result false (rawLine :: rest) =
      cleanupLoop opts
        (result ++ [List.replicate
            ((countHash (goTrimSpace rawLine) : Int) +
              opts.HeaderLevelAdjust).toNat '#' ++
          ' ' :: goTrimSpace (trimLeftHash (goTrimSpace rawLine))])
        false rest := by
  have hne : goTrimSpace rawLine ≠ [] := hasPfx_ne_nil rfl hh
  obtain ⟨c, cs, hcc⟩ : ∃ c cs, goTrimSpace rawLine = c :: cs := by
    cases hc : goTrimSpace rawLine with
    | nil => exact absurd hc hne
    | cons c cs => exact ⟨c, cs, rfl⟩
  have hch : c = '#' := hasPfx_cons_head hcc hh
  have hfence : hasPfx (goTrimSpace rawLine) fenceMarker = false := by
    rw [hcc, hch]; rfl
  rw [cleanupLoop]
  simp only [hne, hfence, hh, not_lt.mpr hk]
  simp [not_lt.mpr hk]

/-- The heading branch, panicking case: `strings.Repeat` with a negative
count aborts the whole cleanup. -/
theorem cleanupLoop_heading_panic (opts : MarkdownOptions) (result : List Line)
    (rawLine : Line) (rest : List Line)
    (hh : hasPfx (goTrimSpace rawLine) ['#'] = true)
    (hk : (countHash (goTrimSpace rawLine) : Int) + opts.HeaderLevelAdjust < 0) :
    cleanupLoop opts result false (rawLine :: rest) = none := by
  have hne : goTrimSpace rawLine ≠ [] := hasPfx_ne_nil rfl hh
  obtain ⟨c, cs, hcc⟩ : ∃ c cs, goTrimSpace rawLine = c :: cs := by
    cases hc : goTrimSpace rawLine with
    | nil => exact absurd hc hne
    | cons c cs => exact ⟨c, cs, rfl⟩
  have hch : c = '#' := hasPfx_cons_head hcc hh
  have hfence : hasPfx (goTrimSpace rawLine) fenceMarker = false := by
    rw [hcc, hch]; rfl
  rw [cleanupLoop]
  simp only [hne, hfence, hh, hk]
  simp [hk]

theorem drop_takeWhile_length (p : Char → Bool) (l : Line) :
    l.drop (l.takeWhile p).length = l.dropWhile p := by
  induction l with
  | nil => rfl
  | cons a as ih =>
    by_cases hp : p a
    · simp [List.takeWhile_cons, List.dropWhile_cons, hp, ih]
    · simp [List.takeWhile_cons, List.dropWhile_cons, hp]

theorem matchesNumbered_head {l : Line} (h : matchesNumbered l = true) :
    ∃ c cs, l = c :: cs ∧ c.isDigit = true := by
  unfold matchesNumbered at h
  cases l with
  | nil => simp at h
  | cons c cs =>
    by_cases hd : c.isDigit
    · exact ⟨c, cs, rfl, hd⟩
    · rw [List.takeWhile_cons] at h
      simp [hd] at h

theorem isDigit_ne {c x : Char} (hd : c.isDigit = true)
    (hx : x.isDigit = false) : c ≠ x := by
  intro he; rw [he, hx] at hd; exact Bool.noConfusion hd

theorem splitAtFirstDot_append (ds r : Line) (hds : ∀ c ∈ ds, c ≠ '.') :
    splitAtFirstDot (ds ++ '.' :: r) = some (ds, r) := by
  induction ds with
  | nil => simp [splitAtFirstDot]
  | cons a as ih =>
    have ha : a ≠ '.' := hds a (by simp)
    rw [List.cons_append]
    rw [show splitAtFirstDot (a :: (as ++ '.' :: r)) =
      (if a = '.' then some (([] : Line), as ++ '.' :: r)
       else match splitAtFirstDot (as ++ '.' :: r) with
         | some (x, b) => some (a :: x, b)
         | none => none) from rfl]
    rw [if_neg ha, ih (fun c hc => hds c (by simp [hc]))]

/-- A line matching `^\d+\.\s` decomposes as a nonempty digit run, a
dot, and a tail starting with a regexp-space; `SplitN` splits it there. -/
theorem matchesNumbered_decomp {l : Line} (h : matchesNumbered l = true) :
    ∃ ds c r, l = ds ++ '.' :: c :: r ∧ ds ≠ [] ∧
      (∀ d ∈ ds, d.isDigit = true) ∧ isRegexSpace c = true ∧
      splitAtFirstDot l = some (ds, c :: r) := by
  unfold matchesNumbered at h
  simp only [Bool.and_eq_true, decide_eq_true_eq] at h
  obtain ⟨hne, hm⟩ := h
  rw [drop_takeWhile_length] at hm
  cases hdrop : l.dropWhile Char.isDigit with
  | nil => rw [hdrop] at hm; exact Bool.noConfusion hm
  | cons x xs =>
    cases xs with
    | nil => rw [hdrop] at hm; exact Bool.noConfusion hm
    | cons c r =>
      rw [hdrop] at hm
      have hm' : (x = '.' && isRegexSpace c) = true := hm
      simp only [Bool.and_eq_true, decide_eq_true_eq] at hm'
      obtain ⟨hx, hsp⟩ := hm'
      subst hx
      have hl : l.takeWhile Char.isDigit ++ '.' :: c :: r = l := by
        rw [← hdrop, List.takeWhile_append_dropWhile]
      have hdig : ∀ d ∈ l.takeWhile Char.isDigit, d.isDigit = true :=
        fun _ hd => List.mem_takeWhile_imp hd
      refine ⟨l.takeWhile Char.isDigit, c, r, hl.symm, hne, hdig, hsp, ?_⟩
      have hgoal := splitAtFirstDot_append (l.takeWhile Char.isDigit) (c :: r)
        (fun d hd => isDigit_ne (hdig d hd) (by decide))
      rw [hl] at hgoal
      exact hgoal

/-- The bullet branch: `* ` and `- ` markers are normalized to `- `. -/
theorem cleanupLoop_bullet (opts : MarkdownOptions) (result : List Line)
    (rawLine : Line) (rest : List Line)
    (hbu : hasPfx (goTrimSpace rawLine) ['*', ' '] = true ∨
      hasPfx (goTrimSpace rawLine) ['-', ' '] = true) :
    cleanupLoop opts result false (rawLine :: rest) =
      cleanupLoop opts
        (result ++ ['-' :: ' ' :: goTrimSpace ((goTrimSpace rawLine).drop 2)])
        false rest := by
  have hne : goTrimSpace rawLine ≠ [] := by
    cases hbu with
    | inl h => exact hasPfx_ne_nil rfl h
    | inr h => exact hasPfx_ne_nil rfl h
  obtain ⟨c, cs, hcc⟩ : ∃ c cs, goTrimSpace rawLine = c :: cs := by
    cases hc : goTrimSpace rawLine with
    | nil => exact absurd hc hne
    | cons c cs => exact ⟨c, cs, rfl⟩
  have hstar : c = '*' ∨ c = '-' := by
    cases hbu with
    | inl h => exact Or.inl (hasPfx_cons_head hcc h)
    | inr h => exact Or.inr (hasPfx_cons_head hcc h)
  have hfence : hasPfx (goTrimSpace rawLine) fenceMarker = false := by
    rw [hcc]; cases hstar with
    | inl h => rw [h]; rfl
    | inr h => rw [h]; rfl
  have hhash : hasPfx (goTrimSpace rawLine) ['#'] = false := by
    rw [hcc]; cases hstar with
    | inl h => rw [h]; rfl
    | inr h => rw [h]; rfl
  rw [cleanupLoop]
  simp only [hne, hfence, hhash, hbu]
  simp [hbu]

/-- The numbered branch: the matched line is rewritten by `SplitN` at
its first dot, with the remainder trimmed and glued with no space. -/
theorem cleanupLoop_numbered (opts : MarkdownOptions) (result : List Line)
    (rawLine : Line) (rest : List Line)
    (hn : matchesNumbered (goTrimSpace rawLine) = true) :
    ∃ ds c r, goTrimSpace rawLine = ds ++ '.' :: c :: r ∧ ds ≠ [] ∧
      (∀ d ∈ ds, d.isDigit = true) ∧
      cleanupLoop opts result false (rawLine :: rest) =
        cleanupLoop opts (result ++ [ds ++ '.' :: goTrimSpace (c :: r)])
          false rest := by
  obtain ⟨ds, c, r, hdec, hdne, hdig, _, hsplit⟩ := matchesNumbered_decomp hn
  obtain ⟨d0, ds', hds0⟩ : ∃ d0 ds', ds = d0 :: ds' := by
    cases hd : ds with
    | nil => exact absurd hd hdne
    | cons d0 ds' => exact ⟨d0, ds', rfl⟩
  have hd0 : d0.isDigit = true := hdig d0 (by rw [hds0]; simp)
  have hcc : goTrimSpace rawLine = d0 :: (ds' ++ '.' :: c :: r) := by
    rw [hdec, hds0]; rfl
  have hne : goTrimSpace rawLine ≠ [] := by rw [hcc]; simp
  have hfence : hasPfx (goTrimSpace rawLine) fenceMarker = false := by
    rw [hcc]
    show (d0 = '`' && hasPfx (ds' ++ '.' :: c :: r) ['`', '`']) = false
    rw [decide_eq_false (isDigit_ne hd0 (by decide))]
    rfl
  have hhash : hasPfx (goTrimSpace rawLine) ['#'] = false := by
    rw [hcc]
    show (d0 = '#' && hasPfx (ds' ++ '.' :: c :: r) []) = false
    rw [decide_eq_false (isDigit_ne hd0 (by decide))]
    rfl
  have hb1 : hasPfx (goTrimSpace rawLine) ['*', ' '] = false := by
    rw [hcc]
    show (d0 = '*' && hasPfx (ds' ++ '.' :: c :: r) [' ']) = false
    rw [decide_eq_false (isDigit_ne hd0 (by decide))]
    rfl
  have hb2 : hasPfx (goTrimSpace rawLine) ['-', ' '] = false := by
    rw [hcc]
    show (d0 = '-' && hasPfx (ds' ++ '.' :: c :: r) [' ']) = false
    rw [decide_eq_false (isDigit_ne hd0 (by decide))]
    rfl
  refine ⟨ds, c, r, hdec, hdne, hdig, ?_⟩
  rw [cleanupLoop]
  simp only [hne, hfence, hhash, hb1, hb2, hn, hsplit]
  simp

/-- The plain branch: a line matching none of the classifications is
emitted trimmed, unmodified. -/
theorem cleanupLoop_plain (opts : MarkdownOptions) (result : List Line)
    (rawLine : Line) (rest : List Line)
    (hf : hasPfx (goTrimSpace rawLine) fenceMarker = false)
    (hh : hasPfx (goTrimSpace rawLine) ['#'] = false)
    (hb1 : hasPfx (goTrimSpace rawLine) ['*', ' '] = false)
    (hb2 : hasPfx (goTrimSpace rawLine) ['-', ' '] = false)
    (hn : matchesNumbered (goTrimSpace rawLine) = false)
    (hnd : ¬(goTrimSpace rawLine = [] ∧ result.getLast? = some [])) :
    cleanupLoop opts result false (rawLine :: rest) =
      cleanupLoop opts (result ++ [goTrimSpace rawLine]) false rest := by
  rw [cleanupLoop]
  simp only [hf, hh, hb1, hb2, hn]
  by_cases hb : goTrimSpace rawLine = []
  · have hl : ¬ result.getLast? = some [] := fun hc => hnd ⟨hb, hc⟩
    simp [hb, hl]
  · simp [hb]

/-! ## Heading emission -/

/-- The line the heading branch emits (non-panicking case). -/
def emittedHeading (opts : MarkdownOptions) (line : Line) : Line :=
  List.replicate ((countHash line : Int) + opts.HeaderLevelAdjust).toNat '#' ++
    ' ' :: goTrimSpace (trimLeftHash line)

/-- Number of leading `'#'` characters of a line (the visible heading
level). -/
def leadingHashCount (l : Line) : Nat :=
  (l.takeWhile (fun c => c = '#')).length

theorem takeWhile_hash_replicate (n : Nat) (t : Line) :
    (List.replicate n '#' ++ ' ' :: t).takeWhile (fun c => c = '#') =
      List.replicate n '#' := by
  induction n with
  | zero => simp [List.takeWhile_cons]
  | succ n ih => simp [List.replicate_succ, List.takeWhile_cons, ih]

/-! ## Claim C1 -/

/-- C1, counterexample: a visible level-6 heading with the default
adjustment `k = 1` is emitted with 7 leading `'#'`, not the claimed
`clamp(6+1, 1, 6) = 6` — the code never clamps the new level to
`[1, 6]`. -/
theorem C1_clamp_counterexample :
    cleanupMarkdownText DefaultMarkdownOptions "###### t" =
      some "####### t" ∧
    leadingHashCount "####### t".data = 7 ∧
    (min (max ((6 : Int) + DefaultMarkdownOptions.HeaderLevelAdjust) 1) 6) ≠ 7 := by
  refine ⟨by decide, by decide, by decide⟩

/-- C1, amended: for a trimmed input line starting with `'#'` processed
outside a fence, with `c` the count of all `'#'` characters in the line
(not only the leading run) and `k` the adjustment, when `c + k ≥ 0` the
emitted line has exactly `c + k` leading `'#'` — no clamping to `[1,6]`
is applied (and `c + k < 0` panics instead, see C4).  For a heading of
visible level `L` whose only `'#'`s are leading, `c = L`. -/
theorem C1_heading_level_adjust (opts : MarkdownOptions) (result : List Line)
    (rawLine : Line) (rest : List Line)
    (hh : hasPfx (goTrimSpace rawLine) ['#'] = true)
    (hk : 0 ≤ (countHash (goTrimSpace rawLine) : Int) + opts.HeaderLevelAdjust) :
    cleanupLoop opts result false (rawLine :: rest) =
      cleanupLoop opts
        (result ++ [emittedHeading opts (goTrimSpace rawLine)]) false rest ∧
    leadingHashCount (emittedHeading opts (goTrimSpace rawLine)) =
      ((countHash (goTrimSpace rawLine) : Int) +
        opts.HeaderLevelAdjust).toNat := by
  constructor
  · exact cleanupLoop_heading opts result rawLine rest hh hk
  · unfold emittedHeading leadingHashCount
    rw [takeWhile_hash_replicate]
    exact List.length_replicate _ _

/-- C1 witness: instantiation at the line `"## x"` with the default
options. -/
theorem C1_heading_level_adjust_witness :
    (cleanupLoop DefaultMarkdownOptions [] false ["## x".data] =
      cleanupLoop DefaultMarkdownOptions
        ([] ++ [emittedHeading DefaultMarkdownOptions
          (goTrimSpace "## x".data)]) false [] ∧
    leadingHashCount (emittedHeading DefaultMarkdownOptions
        (goTrimSpace "## x".data)) =
      ((countHash (goTrimSpace "## x".data) : Int) +
        DefaultMarkdownOptions.HeaderLevelAdjust).toNat) :=
  C1_heading_level_adjust DefaultMarkdownOptions [] "## x".data []
    (by decide) (by decide)

/-! ## Claim C4 -/

/-- C4: the cleanup is not total.  With `HeaderLevelAdjust = -2` the
heading line `"# x"` drives `headerLevel` to `-1`, and the code calls
`strings.Repeat("#", -1)`, which panics in Go; the model returns `none`
there.  The spec's clamping to `[1,6]` (which would prevent this) is
absent from the code. -/
theorem C4_negative_adjust_panics :
    cleanupMarkdownText ⟨-2, true, true⟩ "# x" = none := by decide

/-! ## Claim C5 -/

/-- C5, counterexample: the numbered line `"1. a"` is emitted as
`"1.a"` — the code glues `parts[0] + "." + TrimSpace(parts[1])` with no
space after the dot, so the claimed `number + ". " + text` is wrong. -/
theorem C5_space_counterexample :
    cleanupMarkdownText DefaultMarkdownOptions "1. a" = some "1.a" ∧
    some "1.a" ≠ some "1. a" := by
  refine ⟨by decide, by decide⟩

/-- C5, amended: a trimmed line matching `^\d+\.\s` is emitted as the
digit run, then `'.'`, then the trimmed remainder, with no space
inserted after the dot; the original number label is preserved, not
renumbered. -/
theorem C5_numbered_no_space (opts : MarkdownOptions) (result : List Line)
    (rawLine : Line) (rest : List Line)
    (hn : matchesNumbered (goTrimSpace rawLine) = true) :
    ∃ ds c r, goTrimSpace rawLine = ds ++ '.' :: c :: r ∧ ds ≠ [] ∧
      (∀ d ∈ ds, d.isDigit = true) ∧
      cleanupLoop opts result false (rawLine :: rest) =
        cleanupLoop opts (result ++ [ds ++ '.' :: goTrimSpace (c :: r)])
          false rest :=
  cleanupLoop_numbered opts result rawLine rest hn

/-- C5 witness: instantiation at the line `"1. a"`. -/
theorem C5_numbered_no_space_witness :
    ∃ ds c r, goTrimSpace "1. a".data = ds ++ '.' :: c :: r ∧ ds ≠ [] ∧
      (∀ d ∈ ds, d.isDigit = true) ∧
      cleanupLoop DefaultMarkdownOptions [] false ["1. a".data] =
        cleanupLoop DefaultMarkdownOptions
          ([] ++ [ds ++ '.' :: goTrimSpace (c :: r)]) false [] :=
  C5_numbered_no_space DefaultMarkdownOptions [] "1. a".data [] (by decide)

/-! ## Claim C9 -/

/-- C9, counterexample: with cleanup disabled the extracted text
`"  x  "` is written out untouched, not trimmed line by line as the
claim states. -/
theorem C9_no_trim_counterexample :
    PDFToMarkdownContent ⟨1, false, false⟩ "t" "d" "  x  " = some "  x  " ∧
    some "  x  " ≠ some "x" := by
  refine ⟨by decide, by decide⟩

/-- C9, amended: when `CleanupText` is false the cleanup is skipped
entirely and the raw extracted text is emitted unmodified — no
per-line trimming happens; the frontmatter is still prepended when
enabled. -/
theorem C9_cleanup_disabled_raw (opts : MarkdownOptions)
    (title date text : String) (h : opts.CleanupText = false) :
    PDFToMarkdownContent opts title date text =
      some ((if opts.AddFrontmatter then frontmatter title date else "") ++
        text) := by
  unfold PDFToMarkdownContent
  rw [h]
  simp

/-- C9 witness: instantiation at concrete inputs. -/
theorem C9_cleanup_disabled_raw_witness :
    PDFToMarkdownContent ⟨1, false, false⟩ "t" "d" "  x  " =
      some ((if (false : Bool) then frontmatter "t" "d" else "") ++
        "  x  ") :=
  C9_cleanup_disabled_raw ⟨1, false, false⟩ "t" "d" "  x  " rfl

/-! ## Claim C10 -/

/-- The tree the (total) markdown parser produces for the
unterminated-fence input `"```\ncode"`: a document holding one code
block running to end of input. -/
def C10doc : MdNode := .Document (.cons (.CodeBlock "code\n") .nil)

/-- C10, counterexample: on the unterminated-fence document the
conversion succeeds — it emits a nonempty operation sequence and a nil
error, instead of aborting with a fatal `ParseError` as claimed. -/
theorem C10_no_parse_error_counterexample :
    processMarkdown DefaultPDFOptions C10doc =
      ([.SetFont "Arial" "" 11, .SetFont "Courier" "" 11,
        .SetFillColor 245 245 245, .MultiCell "code\n" true,
        .SetFont "Arial" "" 11], none) ∧
    ([PdfOp.SetFont "Arial" "" 11, .SetFont "Courier" "" 11,
      .SetFillColor 245 245 245, .MultiCell "code\n" true,
      .SetFont "Arial" "" 11] : List PdfOp) ≠ [] := by
  refine ⟨rfl, by simp⟩

/-- C10, amended: the forward conversion never fails on malformed
structured text.  The gomarkdown parser returns a node for every input
(its API has no error result), and `processMarkdown`'s only return
statement is `return nil`: the error component is `none` for every
document. -/
theorem C10_conversion_total (opts : PDFOptions) (doc : MdNode) :
    (processMarkdown opts doc).2 = none := rfl

/-! ## Claim C2 -/

/-- What the loop does to lines while the fence flag is set, given the
last emitted line so far: each line is trimmed and emitted — with no
heading/bullet/numbered reclassification — except that a blank
following an emitted blank is dropped. -/
def fencePass : Option Line → List Line → List Line
  | _, [] => []
  | lastLine, l :: ls =>
    let t := goTrimSpace l
    if t = [] ∧ lastLine = some [] then fencePass lastLine ls
    else t :: fencePass (some t) ls

theorem fence_region_eq (opts : MarkdownOptions) (mid : List Line) :
    ∀ (result : List Line) (rest : List Line),
      (∀ l ∈ mid, hasPfx (goTrimSpace l) fenceMarker = false) →
      cleanupLoop opts result true (mid ++ rest) =
        cleanupLoop opts (result ++ fencePass result.getLast? mid) true rest := by
  induction mid with
  | nil => intro result rest _; simp [fencePass]
  | cons l ls ih =>
    intro result rest hmid
    have hf : hasPfx (goTrimSpace l) fenceMarker = false := hmid l (by simp)
    rw [List.cons_append]
    by_cases hd : goTrimSpace l = [] ∧ result.getLast? = some []
    · rw [cleanupLoop_drop opts result true l (ls ++ rest) hd.1 hd.2]
      rw [ih result rest (fun x hx => hmid x (by simp [hx]))]
      have : fencePass result.getLast? (l :: ls) =
          fencePass result.getLast? ls := by
        rw [fencePass]
        simp [hd.1, hd.2]
      rw [this]
    · rw [cleanupLoop_passthrough opts result l (ls ++ rest) hf hd]
      rw [ih (result ++ [goTrimSpace l]) rest
        (fun x hx => hmid x (by simp [hx]))]
      have hstep : fencePass result.getLast? (l :: ls) =
          goTrimSpace l :: fencePass (some (goTrimSpace l)) ls := by
        rw [fencePass]
        simp only [hd]
        simp
      rw [hstep, List.getLast?_concat, List.append_assoc]
      rfl

/-- C2, counterexample: the interior fence line `"  # not a heading  "`
is emitted trimmed (`"# not a heading"`), so interior content is not
passed through byte-for-byte as the claim states (it is, however, never
reclassified). -/
theorem C2_trim_counterexample :
    cleanupMarkdownText DefaultMarkdownOptions
        "```\n  # not a heading  \n```" =
      some "```\n# not a heading\n```" ∧
    some ("```\n# not a heading\n```" : String) ≠
      some "```\n  # not a heading  \n```" := by
  refine ⟨by decide, by decide⟩

/-- C2, amended: every line strictly between two fence-marker lines is
never reclassified as heading/bullet/numbered — the heading, bullet and
numbered rewrites do not run inside a fence, and the lines appear via
`fencePass`, which only trims each line and drops a blank that follows
an emitted blank (so interior whitespace IS trimmed and interior blank
runs ARE collapsed, contrary to the verbatim part of the claim). -/
theorem C2_fence_sanctity (opts : MarkdownOptions) (result : List Line)
    (f1 f2 : Line) (mid rest : List Line)
    (hf1 : hasPfx (goTrimSpace f1) fenceMarker = true)
    (hf2 : hasPfx (goTrimSpace f2) fenceMarker = true)
    (hmid : ∀ l ∈ mid, hasPfx (goTrimSpace l) fenceMarker = false) :
    cleanupLoop opts result false (f1 :: (mid ++ f2 :: rest)) =
      cleanupLoop opts
        ((result ++ [goTrimSpace f1]) ++
          fencePass (some (goTrimSpace f1)) mid ++ [goTrimSpace f2])
        false rest := by
  rw [cleanupLoop_fence opts result false f1 _ hf1]
  rw [show (!false) = true from rfl]
  rw [fence_region_eq opts mid (result ++ [goTrimSpace f1]) (f2 :: rest) hmid]
  rw [List.getLast?_concat]
  rw [cleanupLoop_fence opts _ true f2 rest hf2]
  rw [show (!true) = false from rfl]

/-! ## Claim C7 -/

/-- The document `# t` (one level-1 heading). -/
def C7doc : MdNode := .Document (.cons (.Heading 1 (.cons (.Text "t") .nil)) .nil)

/-- C7, counterexample: a level-1 heading under the default options
(base size 11) is set at `16 − 1 = 15` pt, not the claimed
`baseFontSize + (7 − L) = 11 + 6 = 17` pt; the base font size plays no
role and no 6 pt floor exists in the code. -/
theorem C7_fontsize_counterexample :
    processMarkdown DefaultPDFOptions C7doc =
      ([.SetFont "Arial" "" 11, .SetFont "Arial" "B" 15, .Ln 5,
        .MultiCell "t" false], none) ∧
    (15 : ℚ) ≠ DefaultPDFOptions.FontSize + (7 - 1) := by
  constructor
  · simp [processMarkdown, walkNode, walkNodes, C7doc, DefaultPDFOptions]
    norm_num
  · show (15 : ℚ) ≠ 11 + (7 - 1)
    norm_num

/-- C7, amended: a `Heading(level)` node sets the main font bold at
size `16 − level` points — a fixed base of 16, independent of the
configured base font size, with no explicit clamp; for the parser's
levels 1–6 the size lies in `[10, 15]` and so never falls below 6 pt
anyway. -/
theorem C7_heading_font (opts : PDFOptions) (inCode : Bool) (lvl : Nat)
    (cs : MdNodes) (hlvl : 1 ≤ lvl ∧ lvl ≤ 6) :
    (walkNode opts inCode (.Heading lvl cs)).1 =
      .SetFont opts.MainFont "B" (16 - (lvl : ℚ)) :: .Ln 5 ::
        (walkNodes opts inCode cs).1 ∧
    (10 : ℚ) ≤ 16 - (lvl : ℚ) ∧ 16 - (lvl : ℚ) ≤ 15 := by
  refine ⟨rfl, ?_, ?_⟩
  · have h6 : (lvl : ℚ) ≤ 6 := by exact_mod_cast hlvl.2
    linarith
  · have h1 : (1 : ℚ) ≤ (lvl : ℚ) := by exact_mod_cast hlvl.1
    linarith

/-- C7 witness: instantiation at level 3. -/
theorem C7_heading_font_witness :
    ((walkNode DefaultPDFOptions false (.Heading 3 .nil)).1 =
      .SetFont DefaultPDFOptions.MainFont "B" (16 - (3 : ℚ)) :: .Ln 5 ::
        (walkNodes DefaultPDFOptions false .nil).1 ∧
    (10 : ℚ) ≤ 16 - ((3 : Nat) : ℚ) ∧ 16 - ((3 : Nat) : ℚ) ≤ 15) :=
  C7_heading_font DefaultPDFOptions false 3 .nil (by decide)

/-! ## Claim C3 -/

/-- Whether an operation is a `SetTextColor`. -/
def isSetTextColor : PdfOp → Bool
  | .SetTextColor _ _ _ => true
  | _ => false

mutual
/-- Number of `Link` nodes in a subtree. -/
def linkCount : MdNode → Nat
  | .Link cs => 1 + linkCounts cs
  | .Heading _ cs => linkCounts cs
  | .Paragraph cs => linkCounts cs
  | .ListBlock cs => linkCounts cs
  | .ListItem cs => linkCounts cs
  | .Document cs => linkCounts cs
  | .Other cs => linkCounts cs
  | .Text _ => 0
  | .CodeBlock _ => 0

/-- Number of `Link` nodes in a node sequence. -/
def linkCounts : MdNodes → Nat
  | .nil => 0
  | .cons n ns => linkCount n + linkCounts ns
end

mutual
theorem walkNode_setTextColor (opts : PDFOptions) (inCode : Bool) :
    ∀ n : MdNode,
      (walkNode opts inCode n).1.filter isSetTextColor =
        List.replicate (if opts.ColorLinks then linkCount n else 0)
          (PdfOp.SetTextColor 0 0 255)
  | .Heading lvl cs => by
    simp only [walkNode, linkCount, List.filter]
    simp [isSetTextColor, walkNodes_setTextColor opts inCode cs]
  | .Text lit => by
    cases hc : inCode <;>
      simp [walkNode, linkCount, isSetTextColor, hc, List.filter]
  | .CodeBlock lit => by
    cases hh : opts.Highlight <;>
      simp [walkNode, linkCount, isSetTextColor, hh, List.filter]
  | .Link cs => by
    cases hc : opts.ColorLinks with
    | true =>
      have h1 : (walkNode opts inCode (.Link cs)).1 =
          PdfOp.SetTextColor 0 0 255 :: (walkNodes opts inCode cs).1 := by
        simp [walkNode, hc]
      rw [h1, List.filter_cons, walkNodes_setTextColor opts inCode cs, hc]
      simp only [linkCount, hc]
      rw [if_pos (show isSetTextColor (PdfOp.SetTextColor 0 0 255) = true
        from rfl)]
      rw [Nat.add_comm 1 (linkCounts cs)]
      simp only [if_true]
      rw [List.replicate_succ]
    | false =>
      have h1 : (walkNode opts inCode (.Link cs)).1 =
          (walkNodes opts inCode cs).1 := by
        simp [walkNode, hc]
      rw [h1, walkNodes_setTextColor opts inCode cs, hc]
      simp
  | .Paragraph cs => by
    simp only [walkNode, linkCount, List.filter]
    simp [isSetTextColor, walkNodes_setTextColor opts inCode cs]
  | .ListBlock cs => by
    simp only [walkNode, linkCount, List.filter]
    simp [isSetTextColor, walkNodes_setTextColor opts inCode cs]
  | .ListItem cs => by
    simp only [walkNode, linkCount, List.filter]
    simp [isSetTextColor, walkNodes_setTextColor opts inCode cs]
  | .Document cs => by
    simp only [walkNode, linkCount]
    exact walkNodes_setTextColor opts inCode cs
  | .Other cs => by
    simp only [walkNode, linkCount]
    exact walkNodes_setTextColor opts inCode cs

theorem walkNodes_setTextColor (opts : PDFOptions) (inCode : Bool) :
    ∀ ns : MdNodes,
      (walkNodes opts inCode ns).1.filter isSetTextColor =
        List.replicate (if opts.ColorLinks then linkCounts ns else 0)
          (PdfOp.SetTextColor 0 0 255)
  | .nil => by simp [walkNodes, linkCounts, List.filter]
  | .cons n ns => by
    have h1 : (walkNodes opts inCode (.cons n ns)).1 =
        (walkNode opts inCode n).1 ++
          (walkNodes opts (walkNode opts inCode n).2 ns).1 := by
      simp [walkNodes]
    rw [h1, List.filter_append, walkNode_setTextColor opts inCode n,
      walkNodes_setTextColor opts (walkNode opts inCode n).2 ns]
    simp only [linkCounts]
    have hiteT : ∀ (a b : Nat), (if true = true then a else b) = a :=
      fun _ _ => if_pos rfl
    have hiteF : ∀ (a b : Nat), (if false = true then a else b) = b :=
      fun _ _ => if_neg (by decide)
    cases hc : opts.ColorLinks with
    | true => rw [hiteT, hiteT, hiteT, List.replicate_add]
    | false => rw [hiteF, hiteF, hiteF]; rfl
end

/-- The document: a paragraph holding a link, then an unrelated
paragraph. -/
def C3doc : MdNode :=
  .Document (.cons (.Paragraph (.cons (.Link (.cons (.Text "l") .nil)) .nil))
    (.cons (.Paragraph (.cons (.Text "after") .nil)) .nil))

/-- C3, counterexample: with `colorLinks` on, the link in the first
paragraph emits the only `SetTextColor` of the whole run — no reset is
emitted at the second paragraph's entry, so the link blue is still the
active text color when the unrelated `"after"` block is written. -/
theorem C3_no_reset_counterexample :
    (processMarkdown DefaultPDFOptions C3doc).1 =
      [.SetFont "Arial" "" 11, .Ln 5, .SetTextColor 0 0 255,
       .MultiCell "l" false, .Ln 5, .MultiCell "after" false] ∧
    (processMarkdown DefaultPDFOptions C3doc).1.countP isSetTextColor = 1 := by
  refine ⟨rfl, rfl⟩

/-- C3, amended: link text color is sticky, not block-scoped.  The only
`SetTextColor` operations the renderer ever emits are the link blue
`(0,0,255)`, exactly one per `Link` entry when `colorLinks` is enabled
(none otherwise): no reset to the default color is ever emitted at
`Paragraph`/`Heading`/`ListItem` entries, so a link's color applies to
all subsequent text blocks until another link sets it again. -/
theorem C3_link_color_sticky (opts : PDFOptions) (doc : MdNode) :
    (processMarkdown opts doc).1.filter isSetTextColor =
      List.replicate (if opts.ColorLinks then linkCount doc else 0)
        (PdfOp.SetTextColor 0 0 255) := by
  unfold processMarkdown
  simp only [List.filter]
  simp [isSetTextColor, walkNode_setTextColor opts false doc]

/-! ## Claim C8 -/

/-- No two adjacent emitted lines are both blank. -/
def noAdjBlank : List Line → Bool
  | [] => true
  | [_] => true
  | a :: b :: rest => !(a.isEmpty && b.isEmpty) && noAdjBlank (b :: rest)

theorem guard_reduce {result : List Line} {t : Line}
    (h1 : ¬(t = [] ∧ result ≠ [] ∧ result.getLast? = some [])) :
    ¬(t = [] ∧ result.getLast? = some []) := by
  intro hc
  have hne : result ≠ [] := by
    intro he; rw [he] at hc; exact Option.noConfusion hc.2
  exact h1 ⟨hc.1, hne, hc.2⟩

theorem noAdjBlank_append (xs : List Line) (y : Line)
    (hxs : noAdjBlank xs = true)
    (hy : y = [] → xs.getLast? ≠ some []) :
    noAdjBlank (xs ++ [y]) = true := by
  induction xs with
  | nil => simp [noAdjBlank]
  | cons a as ih =>
    cases as with
    | nil =>
      show noAdjBlank [a, y] = true
      have ha : a.isEmpty = false ∨ y.isEmpty = false := by
        by_cases hye : y = []
        · left
          have : a ≠ [] := by
            intro hae
            exact (hy hye) (by rw [hae]; rfl)
          cases a with
          | nil => exact absurd rfl this
          | cons c cs => rfl
        · right
          cases y with
          | nil => exact absurd rfl hye
          | cons c cs => rfl
      show (!(a.isEmpty && y.isEmpty) && noAdjBlank [y]) = true
      cases ha with
      | inl h => simp [h, noAdjBlank]
      | inr h => simp [h, noAdjBlank]
    | cons b bs =>
      have hxs' : (!(a.isEmpty && b.isEmpty) && noAdjBlank (b :: bs)) = true :=
        hxs
      simp only [Bool.and_eq_true] at hxs'
      have hy' : y = [] → (b :: bs).getLast? ≠ some [] := by
        intro hye
        have := hy hye
        rwa [List.getLast?_cons_cons] at this
      have hrec := ih hxs'.2 hy'
      show (!(a.isEmpty && b.isEmpty) && noAdjBlank (b :: (bs ++ [y]))) = true
      simp only [Bool.and_eq_true]
      exact ⟨hxs'.1, hrec⟩

theorem mem_of_mem_trimLeftHash {c : Char} {l : Line}
    (h : c ∈ trimLeftHash l) : c ∈ l :=
  (List.dropWhile_suffix _).subset h

/-- Each loop step either drops the line (a blank after an emitted
blank), appends exactly one line — blank only if the previous emitted
line was not blank, built from the trimmed line's characters plus the
decoration characters `#`, space, `-`, `.` — or panics. -/
theorem cleanupLoop_step_shape (opts : MarkdownOptions) (result : List Line)
    (inCode : Bool) (l : Line) (ls : List Line) :
    (cleanupLoop opts result inCode (l :: ls) =
        cleanupLoop opts result inCode ls ∧
      goTrimSpace l = [] ∧ result.getLast? = some []) ∨
    (∃ e inCode2,
      cleanupLoop opts result inCode (l :: ls) =
        cleanupLoop opts (result ++ [e]) inCode2 ls ∧
      (e = [] → result.getLast? ≠ some []) ∧
      (∀ ch ∈ e, ch ∈ goTrimSpace l ∨ ch = '#' ∨ ch = ' ' ∨ ch = '-' ∨
        ch = '.')) ∨
    cleanupLoop opts result inCode (l :: ls) = none := by
  by_cases h1 : goTrimSpace l = [] ∧ result ≠ [] ∧ result.getLast? = some []
  · exact Or.inl ⟨cleanupLoop_drop opts result inCode l ls h1.1 h1.2.2,
      h1.1, h1.2.2⟩
  · by_cases h2 : hasPfx (goTrimSpace l) fenceMarker = true
    · refine Or.inr (Or.inl ⟨goTrimSpace l, !inCode,
        cleanupLoop_fence opts result inCode l ls h2, ?_, ?_⟩)
      · intro he
        exact absurd he (hasPfx_ne_nil rfl h2)
      · exact fun ch hch => Or.inl hch
    · have h2f : hasPfx (goTrimSpace l) fenceMarker = false :=
        Bool.not_eq_true _ ▸ eq_false_of_ne_true h2
      cases inCode with
      | true =>
        refine Or.inr (Or.inl ⟨goTrimSpace l, true,
          cleanupLoop_passthrough opts result l ls h2f (guard_reduce h1),
          ?_, ?_⟩)
        · intro he hlast
          exact guard_reduce h1 ⟨he, hlast⟩
        · exact fun ch hch => Or.inl hch
      | false =>
        cases h3 : hasPfx (goTrimSpace l) ['#'] with
        | true =>
          by_cases h4 :
              (countHash (goTrimSpace l) : Int) + opts.HeaderLevelAdjust < 0
          · exact Or.inr (Or.inr
              (cleanupLoop_heading_panic opts result l ls h3 h4))
          · refine Or.inr (Or.inl ⟨_, false,
              cleanupLoop_heading opts result l ls h3 (not_lt.mp h4),
              ?_, ?_⟩)
            · intro he
              exact absurd he (by simp)
            · intro ch hch
              rcases List.mem_append.mp hch with hch | hch
              · exact Or.inr (Or.inl (List.eq_of_mem_replicate hch))
              · rcases List.mem_cons.mp hch with hch | hch
                · exact Or.inr (Or.inr (Or.inl hch))
                · exact Or.inl (mem_of_mem_trimLeftHash
                    (mem_of_mem_goTrimSpace hch))
        | false =>
          have memBullet : ∀ ch ∈ '-' :: ' ' ::
              goTrimSpace ((goTrimSpace l).drop 2),
              ch ∈ goTrimSpace l ∨ ch = '#' ∨ ch = ' ' ∨ ch = '-' ∨
                ch = '.' := by
            intro ch hch
            rcases List.mem_cons.mp hch with hch | hch
            · exact Or.inr (Or.inr (Or.inr (Or.inl hch)))
            · rcases List.mem_cons.mp hch with hch | hch
              · exact Or.inr (Or.inr (Or.inl hch))
              · exact Or.inl (List.drop_subset 2 _
                  (mem_of_mem_goTrimSpace hch))
          cases h5a : hasPfx (goTrimSpace l) ['*', ' '] with
          | true =>
            exact Or.inr (Or.inl ⟨_, false,
              cleanupLoop_bullet opts result l ls (Or.inl h5a),
              fun he => absurd he (by simp), memBullet⟩)
          | false =>
            cases h5b : hasPfx (goTrimSpace l) ['-', ' '] with
            | true =>
              exact Or.inr (Or.inl ⟨_, false,
                cleanupLoop_bullet opts result l ls (Or.inr h5b),
                fun he => absurd he (by simp), memBullet⟩)
            | false =>
              cases h6 : matchesNumbered (goTrimSpace l) with
              | true =>
                obtain ⟨ds, c, r, hdec, _, _, heq⟩ :=
                  cleanupLoop_numbered opts result l ls h6
                refine Or.inr (Or.inl ⟨_, false, heq, ?_, ?_⟩)
                · intro he
                  exact absurd he (by simp)
                · intro ch hch
                  rcases List.mem_append.mp hch with hch | hch
                  · refine Or.inl ?_
                    rw [hdec]
                    exact List.mem_append.mpr (Or.inl hch)
                  · rcases List.mem_cons.mp hch with hch | hch
                    · exact Or.inr (Or.inr (Or.inr (Or.inr hch)))
                    · refine Or.inl ?_
                      rw [hdec]
                      exact List.mem_append.mpr
                        (Or.inr (List.mem_cons_of_mem _
                          (mem_of_mem_goTrimSpace hch)))
              | false =>
                exact Or.inr (Or.inl ⟨goTrimSpace l, false,
                  cleanupLoop_plain opts result l ls h2f h3 h5a h5b h6
                    (guard_reduce h1),
                  fun he hlast => guard_reduce h1 ⟨he, hlast⟩,
                  fun ch hch => Or.inl hch⟩)

/-- The loop only ever appends to its accumulator. -/
theorem cleanupLoop_extends (opts : MarkdownOptions) :
    ∀ (ls racc : List Line) (ic : Bool) (res : List Line),
      cleanupLoop opts racc ic ls = some res → ∃ o, res = racc ++ o := by
  intro ls
  induction ls with
  | nil =>
    intro racc ic res h
    rw [cleanupLoop_nil] at h
    exact ⟨[], by simp [← Option.some_inj.mp h]⟩
  | cons l ls ih =>
    intro racc ic res h
    rcases cleanupLoop_step_shape opts racc ic l ls with
      ⟨heq, _, _⟩ | ⟨e, ic2, heq, _, _⟩ | heq
    · rw [heq] at h
      exact ih racc ic res h
    · rw [heq] at h
      obtain ⟨o, ho⟩ := ih (racc ++ [e]) ic2 res h
      exact ⟨e :: o, by rw [ho, List.append_assoc]; rfl⟩
    · rw [heq] at h
      exact Option.noConfusion h

theorem getLast?_mem' {l : List Line} {a : Line}
    (h : l.getLast? = some a) : a ∈ l := by
  obtain ⟨hne, rfl⟩ := List.mem_getLast?_eq_getLast h
  exact List.getLast_mem hne

theorem char_getLast?_mem {l : Line} {a : Char}
    (h : l.getLast? = some a) : a ∈ l := by
  obtain ⟨hne, rfl⟩ := List.mem_getLast?_eq_getLast h
  exact List.getLast_mem hne

/-- Lines emitted by the loop contain no newline when the input lines
and the accumulator contain none. -/
theorem cleanupLoop_no_newline (opts : MarkdownOptions) :
    ∀ (ls racc : List Line) (ic : Bool) (res : List Line),
      (∀ l ∈ ls, ('\n' : Char) ∉ l) → (∀ l ∈ racc, ('\n' : Char) ∉ l) →
      cleanupLoop opts racc ic ls = some res →
      ∀ l ∈ res, ('\n' : Char) ∉ l := by
  intro ls
  induction ls with
  | nil =>
    intro racc ic res _ hracc h
    rw [cleanupLoop_nil] at h
    rw [← Option.some_inj.mp h]
    exact hracc
  | cons l ls ih =>
    intro racc ic res hls hracc h
    rcases cleanupLoop_step_shape opts racc ic l ls with
      ⟨heq, _, _⟩ | ⟨e, ic2, heq, _, hmem⟩ | heq
    · rw [heq] at h
      exact ih racc ic res (fun x hx => hls x (List.mem_cons_of_mem _ hx))
        hracc h
    · rw [heq] at h
      refine ih (racc ++ [e]) ic2 res
        (fun x hx => hls x (List.mem_cons_of_mem _ hx)) ?_ h
      intro x hx
      rcases List.mem_append.mp hx with hx | hx
      · exact hracc x hx
      · rw [List.mem_singleton.mp hx]
        intro hnl
        rcases hmem '\n' hnl with hin | h' | h' | h' | h'
        · exact hls l (by simp) (mem_of_mem_goTrimSpace hin)
        · exact absurd h' (by decide)
        · exact absurd h' (by decide)
        · exact absurd h' (by decide)
        · exact absurd h' (by decide)
    · rw [heq] at h
      exact Option.noConfusion h

/-- With an empty accumulator the loop's output is nonempty: the first
line is never dropped. -/
theorem cleanupLoop_ne_nil (opts : MarkdownOptions) (l : Line)
    (ls : List Line) (ic : Bool) (res : List Line)
    (h : cleanupLoop opts [] ic (l :: ls) = some res) : res ≠ [] := by
  rcases cleanupLoop_step_shape opts [] ic l ls with
    ⟨_, _, hlast⟩ | ⟨e, ic2, heq, _, _⟩ | heq
  · exact Option.noConfusion hlast
  · rw [heq] at h
    obtain ⟨o, ho⟩ := cleanupLoop_extends opts ls ([] ++ [e]) ic2 res h
    rw [ho]
    simp
  · rw [heq] at h
    exact Option.noConfusion h

theorem splitLines_ne_nil (x : List Char) : splitLines x ≠ [] := by
  induction x with
  | nil => intro h; exact List.noConfusion h
  | cons c cs ih =>
    rw [splitLines]
    by_cases h : c = '\n'
    · rw [if_pos h]
      intro hh
      exact List.noConfusion hh
    · rw [if_neg h]
      cases hs : splitLines cs with
      | nil => intro hh; exact List.noConfusion hh
      | cons a as => intro hh; exact List.noConfusion hh

theorem splitLines_no_newline (x : List Char) :
    ∀ l ∈ splitLines x, ('\n' : Char) ∉ l := by
  induction x with
  | nil =>
    intro l hl
    rw [show splitLines [] = [[]] from rfl] at hl
    rw [List.mem_singleton.mp hl]
    simp
  | cons c cs ih =>
    intro l hl
    rw [splitLines] at hl
    by_cases h : c = '\n'
    · rw [if_pos h] at hl
      rcases List.mem_cons.mp hl with rfl | hl
      · simp
      · exact ih l hl
    · rw [if_neg h] at hl
      cases hs : splitLines cs with
      | nil =>
        rw [hs] at hl
        rw [List.mem_singleton.mp hl]
        intro hmem
        rcases List.mem_singleton.mp hmem with rfl
        exact h rfl
      | cons a as =>
        rw [hs] at hl
        rcases List.mem_cons.mp hl with rfl | hl
        · intro hmem
          rcases List.mem_cons.mp hmem with hc | hmem
          · exact h hc.symm
          · exact ih a (by rw [hs]; simp) hmem
        · exact ih l (by rw [hs]; simp [hl])

theorem splitLines_singleton (a : Line) (h : ('\n' : Char) ∉ a) :
    splitLines a = [a] := by
  induction a with
  | nil => rfl
  | cons c cs ih =>
    rw [splitLines]
    have hc : ¬(c = '\n') := fun hh => h (by rw [hh]; simp)
    rw [if_neg hc, ih (fun hmem => h (List.mem_cons_of_mem c hmem))]

theorem splitLines_append_newline (a : List Char) (rest : List Char)
    (h : ('\n' : Char) ∉ a) :
    splitLines (a ++ '\n' :: rest) = a :: splitLines rest := by
  induction a with
  | nil =>
    show splitLines ('\n' :: rest) = [] :: splitLines rest
    rw [splitLines, if_pos rfl]
  | cons c cs ih =>
    have hc : ¬(c = '\n') := fun hh => h (by rw [hh]; simp)
    show splitLines (c :: (cs ++ '\n' :: rest)) = (c :: cs) :: splitLines rest
    rw [splitLines, if_neg hc,
      ih (fun hmem => h (List.mem_cons_of_mem c hmem))]

theorem splitLines_joinLines (out : List Line) :
    out ≠ [] → (∀ l ∈ out, ('\n' : Char) ∉ l) →
    splitLines (joinLines out) = out := by
  induction out with
  | nil => intro hne _; exact absurd rfl hne
  | cons a as ih =>
    intro _ hnl
    cases as with
    | nil =>
      show splitLines (joinLines [a]) = [a]
      rw [show joinLines [a] = a from rfl]
      exact splitLines_singleton a (hnl a (by simp))
    | cons b bs =>
      show splitLines (a ++ '\n' :: joinLines (b :: bs)) = a :: b :: bs
      rw [splitLines_append_newline a _ (hnl a (by simp))]
      rw [ih (by simp) (fun x hx => hnl x (List.mem_cons_of_mem _ hx))]

theorem goTrimSpace_eq_self (x : Line)
    (hh : ∀ c, x.head? = some c → goIsSpace c = false)
    (hl : ∀ c, x.getLast? = some c → goIsSpace c = false) :
    goTrimSpace x = x := by
  have h1 : x.dropWhile goIsSpace = x := dropWhile_eq_self_of_head? _ _ hh
  have h2 : x.reverse.dropWhile goIsSpace = x.reverse :=
    dropWhile_eq_self_of_head? _ _
      (fun c hc => hl c (by rwa [List.head?_reverse] at hc))
  show ((x.dropWhile goIsSpace).reverse.dropWhile goIsSpace).reverse = x
  rw [h1, h2, List.reverse_reverse]

theorem mem_dropWhile_of_not (p : Char → Bool) {c : Char} :
    ∀ {l : Line}, c ∈ l → p c = false → c ∈ l.dropWhile p := by
  intro l
  induction l with
  | nil => intro h _; simp at h
  | cons a as ih =>
    intro h hp
    rw [List.dropWhile_cons]
    by_cases ha : p a = true
    · rw [if_pos ha]
      rcases List.mem_cons.mp h with rfl | h
      · rw [ha] at hp; exact Bool.noConfusion hp
      · exact ih h hp
    · rw [if_neg ha]
      exact h

theorem mem_goTrimSpace_of_not_space {c : Char} {l : Line}
    (h : c ∈ l) (hc : goIsSpace c = false) : c ∈ goTrimSpace l := by
  show c ∈ ((l.dropWhile goIsSpace).reverse.dropWhile goIsSpace).reverse
  rw [List.mem_reverse]
  apply mem_dropWhile_of_not _ _ hc
  rw [List.mem_reverse]
  exact mem_dropWhile_of_not _ h hc

/-- Invariant: starting from an accumulator with no adjacent blanks,
the loop's final output has no adjacent blanks. -/
theorem cleanupLoop_noAdjBlank (opts : MarkdownOptions) :
    ∀ (lines result : List Line) (inCode : Bool) (r : List Line),
      noAdjBlank result = true →
      cleanupLoop opts result inCode lines = some r → noAdjBlank r = true := by
  intro lines
  induction lines with
  | nil =>
    intro result inCode r hres h
    rw [cleanupLoop_nil] at h
    exact (Option.some_inj.mp h) ▸ hres
  | cons l ls ih =>
    intro result inCode r hres h
    rcases cleanupLoop_step_shape opts result inCode l ls with
      ⟨heq, _, _⟩ | ⟨e, ic2, heq, hcond, _⟩ | heq
    · rw [heq] at h
      exact ih result inCode r hres h
    · rw [heq] at h
      exact ih (result ++ [e]) ic2 r (noAdjBlank_append result e hres hcond) h
    · rw [heq] at h
      exact Option.noConfusion h

/-- Blank lines arriving while the last emitted line is blank are all
dropped. -/
theorem cleanupLoop_drop_blanks (opts : MarkdownOptions) (inCode : Bool)
    (rest : List Line) :
    ∀ (k : Nat) (racc : List Line), racc.getLast? = some [] →
      cleanupLoop opts racc inCode (List.replicate k [] ++ rest) =
        cleanupLoop opts racc inCode rest := by
  intro k
  induction k with
  | zero => intro racc _; rfl
  | succ n ih =>
    intro racc hlast
    rw [List.replicate_succ, List.cons_append]
    rw [cleanupLoop_drop opts racc inCode [] _ rfl hlast]
    exact ih racc hlast

/-- A run of `N ≥ 1` blank lines arriving while the last emitted line
is not blank contributes exactly one blank line to the output. -/
theorem cleanupLoop_blank_run (opts : MarkdownOptions) (result : List Line)
    (inCode : Bool) (rest : List Line) (N : Nat) (hN : 1 ≤ N)
    (hlast : result.getLast? ≠ some []) :
    cleanupLoop opts result inCode (List.replicate N [] ++ rest) =
      cleanupLoop opts (result ++ [[]]) inCode rest := by
  cases N with
  | zero => exact absurd hN (by omega)
  | succ n =>
    rw [List.replicate_succ, List.cons_append]
    rw [cleanupLoop_blank_emit opts result inCode [] _ rfl hlast]
    exact cleanupLoop_drop_blanks opts inCode rest n (result ++ [[]])
      (List.getLast?_concat _)

/-- C8: (a) the emitted-line list never contains two consecutive blank
lines — an invariant preserved by every step of the loop; (b) a run of
`N ≥ 1` consecutive blank input lines at a position whose previous
emitted line is not blank yields exactly one blank output line at that
position, for all `N` (so every run of `N ≥ 2` collapses to 1). -/
theorem C8_blank_collapse (opts : MarkdownOptions) :
    (∀ (lines r : List Line),
      cleanupLoop opts [] false lines = some r → noAdjBlank r = true) ∧
    (∀ (result : List Line) (inCode : Bool) (rest : List Line) (N : Nat),
      1 ≤ N → result.getLast? ≠ some [] →
      cleanupLoop opts result inCode (List.replicate N [] ++ rest) =
        cleanupLoop opts (result ++ [[]]) inCode rest) := by
  constructor
  · intro lines r h
    exact cleanupLoop_noAdjBlank opts lines [] false r rfl h
  · intro result inCode rest N hN hlast
    exact cleanupLoop_blank_run opts result inCode rest N hN hlast

/-- C8 witness: a three-blank run after `"a"` collapses to one blank,
and a concrete cleanup output has no adjacent blanks. -/
theorem C8_blank_collapse_witness :
    noAdjBlank ["a".data, [], "b".data] = true ∧
    cleanupLoop DefaultMarkdownOptions ["a".data] false
        (List.replicate 3 [] ++ ["b".data]) =
      cleanupLoop DefaultMarkdownOptions (["a".data] ++ [[]]) false
        ["b".data] := by
  constructor
  · exact (C8_blank_collapse DefaultMarkdownOptions).1
      ["a".data, [], [], [], "b".data] ["a".data, [], "b".data] (by decide)
  · exact (C8_blank_collapse DefaultMarkdownOptions).2
      ["a".data] false ["b".data] 3 (by decide) (by decide)

/-! ## Claim C6: stability machinery -/

/-- All `'#'` characters of the line sit in its leading run. -/
def hashOnlyLeading (t : Line) : Bool :=
  decide (countHash (trimLeftHash t) = 0)

theorem isDigit_not_space {c : Char} (hd : c.isDigit = true) :
    goIsSpace c = false := by
  unfold goIsSpace
  rw [decide_eq_false (isDigit_ne hd (by decide)),
    decide_eq_false (isDigit_ne hd (by decide)),
    decide_eq_false (isDigit_ne hd (by decide)),
    decide_eq_false (isDigit_ne hd (by decide)),
    decide_eq_false (isDigit_ne hd (by decide)),
    decide_eq_false (isDigit_ne hd (by decide)),
    decide_eq_false (isDigit_ne hd (by decide)),
    decide_eq_false (isDigit_ne hd (by decide))]
  rfl

theorem isRegexSpace_false_of_not_space {c : Char}
    (h : goIsSpace c = false) : isRegexSpace c = false := by
  unfold goIsSpace at h
  unfold isRegexSpace
  simp only [Bool.or_eq_false_iff] at h ⊢
  exact ⟨⟨⟨⟨h.1.1.1.1.1.1.2, h.1.1.1.1.1.2⟩, h.1.1.1.2⟩, h.1.1.2⟩,
    h.1.1.1.1.1.1.1⟩

theorem countHash_append (a b : Line) :
    countHash (a ++ b) = countHash a + countHash b :=
  List.countP_append _ a b

theorem countHash_replicate (m : Nat) :
    countHash (List.replicate m '#') = m := by
  induction m with
  | zero => rfl
  | succ k ih =>
    rw [List.replicate_succ]
    show List.countP (fun c => c = '#') ('#' :: List.replicate k '#') = k + 1
    rw [List.countP_cons]
    rw [show List.countP (fun c => decide (c = '#'))
      (List.replicate k '#') = k from ih]
    simp

theorem countHash_eq_zero {l : Line} (h : countHash l = 0) :
    ∀ c ∈ l, c ≠ '#' := by
  intro c hc he
  have := List.countP_eq_zero.mp h c hc
  rw [he] at this
  simp at this

theorem countHash_goTrimSpace_zero {u : Line} (h : countHash u = 0) :
    countHash (goTrimSpace u) = 0 := by
  apply List.countP_eq_zero.mpr
  intro c hc
  have := countHash_eq_zero h c (mem_of_mem_goTrimSpace hc)
  simpa using this

theorem takeWhile_hash_eq (t : Line) :
    t.takeWhile (fun c => c = '#') =
      List.replicate (leadingHashCount t) '#' := by
  apply List.eq_replicate_of_mem
  intro b hb
  have := List.mem_takeWhile_imp hb
  simpa using this

theorem hash_decomp (t : Line) :
    t = List.replicate (leadingHashCount t) '#' ++ trimLeftHash t := by
  rw [← takeWhile_hash_eq]
  exact (List.takeWhile_append_dropWhile _ _).symm

theorem leadingHashCount_pos {t : Line} (hh : hasPfx t ['#'] = true) :
    1 ≤ leadingHashCount t := by
  cases t with
  | nil => exact Bool.noConfusion hh
  | cons c cs =>
    have hc : c = '#' := hasPfx_cons_head rfl hh
    unfold leadingHashCount
    rw [List.takeWhile_cons, if_pos (by rw [hc]; rfl)]
    simp

theorem countHash_of_hol {t : Line} (hol : hashOnlyLeading t = true) :
    countHash t = leadingHashCount t := by
  have hu : countHash (trimLeftHash t) = 0 := by
    unfold hashOnlyLeading at hol
    exact of_decide_eq_true hol
  calc countHash t
      = countHash (List.replicate (leadingHashCount t) '#' ++
          trimLeftHash t) := by rw [← hash_decomp]
    _ = leadingHashCount t + 0 := by
        rw [countHash_append, countHash_replicate, hu]
    _ = leadingHashCount t := by omega

theorem dropWhile_hash_replicate_append (m : Nat) (rest : Line)
    (hrest : ∀ c, rest.head? = some c → (c = '#') = false) :
    (List.replicate m '#' ++ rest).dropWhile (fun c => c = '#') = rest := by
  induction m with
  | zero =>
    rw [List.replicate_zero, List.nil_append]
    exact dropWhile_eq_self_of_head? _ rest
      (fun c hc => by simpa using hrest c hc)
  | succ k ih =>
    rw [List.replicate_succ, List.cons_append, List.dropWhile_cons]
    rw [if_pos (by simp)]
    exact ih

theorem takeWhile_digits_append (ds v : Line)
    (hds : ∀ d ∈ ds, d.isDigit = true) :
    (ds ++ '.' :: v).takeWhile Char.isDigit = ds := by
  induction ds with
  | nil =>
    rw [List.nil_append, List.takeWhile_cons]
    rw [if_neg (by decide)]
  | cons d ds' ih =>
    rw [List.cons_append, List.takeWhile_cons]
    rw [if_pos (hds d (by simp))]
    rw [ih (fun x hx => hds x (List.mem_cons_of_mem _ hx))]

theorem head?_replicate_succ_append (k : Nat) (rest : Line) :
    (List.replicate (k + 1) '#' ++ rest).head? = some '#' := by
  rw [List.replicate_succ, List.cons_append]
  rfl

theorem hasPfx_nil_pat (l : Line) : hasPfx l [] = true := by
  cases l with
  | nil => rfl
  | cons c cs => rfl

theorem hasPfx_hash_replicate_append (k : Nat) (rest : Line) :
    hasPfx (List.replicate (k + 1) '#' ++ rest) ['#'] = true := by
  rw [List.replicate_succ, List.cons_append]
  show (decide ('#' = '#') && hasPfx (List.replicate k '#' ++ rest) []) = true
  rw [hasPfx_nil_pat]
  rfl

theorem goTrimSpace_cons_space (v : Line) :
    goTrimSpace (' ' :: v) = goTrimSpace v := by
  show (((' ' :: v).dropWhile goIsSpace).reverse.dropWhile
      goIsSpace).reverse = _
  rw [List.dropWhile_cons, if_pos (by decide)]
  rfl

theorem countHash_cons_space (v : Line) :
    countHash (' ' :: v) = countHash v := by
  unfold countHash
  rw [List.countP_cons]
  simp

theorem trimLeftHash_replicate (m : Nat) :
    trimLeftHash (List.replicate m '#') = [] := by
  unfold trimLeftHash
  rw [← List.append_nil (List.replicate m '#')]
  exact dropWhile_hash_replicate_append m []
    (fun c hc => Option.noConfusion hc)

theorem goTrimSpace_replicate_hash_space (k : Nat) :
    goTrimSpace (List.replicate (k + 1) '#' ++ [' ']) =
      List.replicate (k + 1) '#' := by
  have h1 : (List.replicate (k + 1) '#' ++ [' ']).dropWhile goIsSpace =
      List.replicate (k + 1) '#' ++ [' '] :=
    dropWhile_eq_self_of_head? _ _ (fun c hc => by
      rw [head?_replicate_succ_append] at hc
      rw [← Option.some_inj.mp hc]
      decide)
  show ((((List.replicate (k + 1) '#' ++ [' ']).dropWhile
      goIsSpace).reverse).dropWhile goIsSpace).reverse = _
  rw [h1, List.reverse_append, List.reverse_replicate]
  rw [show ([' '] : Line).reverse = [' '] from rfl, List.singleton_append]
  rw [List.dropWhile_cons, if_pos (by decide)]
  rw [dropWhile_eq_self_of_head? _ _ (fun c hc => by
    rw [show (List.replicate (k + 1) '#').head? = some '#' from by
      rw [List.replicate_succ]; rfl] at hc
    rw [← Option.some_inj.mp hc]
    decide)]
  rw [List.reverse_replicate]

/-- `cleanupLoop_heading` with the emitted line named. -/
theorem cleanupLoop_heading' (opts : MarkdownOptions) (result : List Line)
    (rawLine : Line) (rest : List Line)
    (hh : hasPfx (goTrimSpace rawLine) ['#'] = true)
    (hk : 0 ≤ (countHash (goTrimSpace rawLine) : Int) +
      opts.HeaderLevelAdjust) :
    cleanupLoop opts result false (rawLine :: rest) =
      cleanupLoop opts
        (result ++ [emittedHeading opts (goTrimSpace rawLine)]) false rest :=
  cleanupLoop_heading opts result rawLine rest hh hk

theorem heading_emit_eq (opts : MarkdownOptions)
    (h0 : opts.HeaderLevelAdjust = 0) {t : Line}
    (hol : hashOnlyLeading t = true) :
    emittedHeading opts t =
      List.replicate (leadingHashCount t) '#' ++
        ' ' :: goTrimSpace (trimLeftHash t) := by
  unfold emittedHeading
  rw [h0, countHash_of_hol hol]
  rw [show ((leadingHashCount t : Int) + 0).toNat = leadingHashCount t by
    simp]

/-- Reprocessing a heading-branch output line emits it unchanged (with
zero adjustment and all input hashes leading). -/
theorem heading_emit_stable (opts : MarkdownOptions)
    (h0 : opts.HeaderLevelAdjust = 0) (t : Line)
    (hh : hasPfx t ['#'] = true) (hol : hashOnlyLeading t = true) :
    ∀ (r2 o2 : List Line),
      cleanupLoop opts r2 false (emittedHeading opts t :: o2) =
        cleanupLoop opts (r2 ++ [emittedHeading opts t]) false o2 := by
  intro r2 o2
  obtain ⟨k, hk⟩ : ∃ k, leadingHashCount t = k + 1 := by
    have := leadingHashCount_pos hh
    exact ⟨leadingHashCount t - 1, by omega⟩
  have he : emittedHeading opts t =
      List.replicate (leadingHashCount t) '#' ++
        ' ' :: goTrimSpace (trimLeftHash t) := heading_emit_eq opts h0 hol
  have hvc : countHash (goTrimSpace (trimLeftHash t)) = 0 := by
    apply countHash_goTrimSpace_zero
    unfold hashOnlyLeading at hol
    exact of_decide_eq_true hol
  by_cases hv0 : goTrimSpace (trimLeftHash t) = []
  · -- emitted line is `#…# ` and trims back to `#…#`
    have ht2 : goTrimSpace (emittedHeading opts t) =
        List.replicate (leadingHashCount t) '#' := by
      rw [he, hv0, hk]
      exact goTrimSpace_replicate_hash_space k
    have hpfx : hasPfx (goTrimSpace (emittedHeading opts t)) ['#'] = true := by
      rw [ht2, hk, ← List.append_nil (List.replicate (k + 1) '#')]
      exact hasPfx_hash_replicate_append k []
    have hpos : 0 ≤ (countHash (goTrimSpace (emittedHeading opts t)) : Int) +
        opts.HeaderLevelAdjust := by
      rw [h0, add_zero]
      exact Int.natCast_nonneg _
    rw [cleanupLoop_heading' opts r2 (emittedHeading opts t) o2 hpfx hpos]
    have hL : emittedHeading opts (List.replicate (leadingHashCount t) '#') =
        List.replicate (leadingHashCount t) '#' ++ [' '] := by
      unfold emittedHeading
      rw [h0, countHash_replicate, trimLeftHash_replicate]
      rw [show ((leadingHashCount t : Int) + 0).toNat = leadingHashCount t by
        simp]
      rfl
    have hstable : emittedHeading opts (goTrimSpace (emittedHeading opts t)) =
        emittedHeading opts t := by
      rw [ht2, hL, he, hv0]
    rw [hstable]
  · -- emitted line is already trimmed
    have hlastv : ∀ c, (goTrimSpace (trimLeftHash t)).getLast? = some c →
        goIsSpace c = false := fun c hc => goTrimSpace_getLast? _ hc
    have ht2 : goTrimSpace (emittedHeading opts t) = emittedHeading opts t := by
      apply goTrimSpace_eq_self
      · intro c hc
        rw [he, hk, head?_replicate_succ_append] at hc
        rw [← Option.some_inj.mp hc]
        decide
      · intro c hc
        rw [he, List.getLast?_append_of_ne_nil _ (by simp)] at hc
        cases hvc2 : goTrimSpace (trimLeftHash t) with
        | nil => exact absurd hvc2 hv0
        | cons v0 v' =>
          rw [hvc2, List.getLast?_cons_cons] at hc
          exact hlastv c (by rw [hvc2]; exact hc)
    have hpfx : hasPfx (goTrimSpace (emittedHeading opts t)) ['#'] = true := by
      rw [ht2, he, hk]
      exact hasPfx_hash_replicate_append k _
    have hpos : 0 ≤ (countHash (goTrimSpace (emittedHeading opts t)) : Int) +
        opts.HeaderLevelAdjust := by
      rw [h0, add_zero]
      exact Int.natCast_nonneg _
    rw [cleanupLoop_heading' opts r2 (emittedHeading opts t) o2 hpfx hpos]
    have hcount : countHash (emittedHeading opts t) = leadingHashCount t := by
      rw [he, countHash_append, countHash_replicate, countHash_cons_space,
        hvc]
      omega
    have hstable : emittedHeading opts (goTrimSpace (emittedHeading opts t)) =
        emittedHeading opts t := by
      rw [ht2]
      set e := emittedHeading opts t with hedef
      have htr : trimLeftHash e = ' ' :: goTrimSpace (trimLeftHash t) := by
        rw [he]
        exact dropWhile_hash_replicate_append _ _ (fun c hc => by
          rw [show (' ' :: goTrimSpace (trimLeftHash t)).head? = some ' '
            from rfl] at hc
          rw [← Option.some_inj.mp hc]
          decide)
      unfold emittedHeading
      rw [h0, hcount, htr, goTrimSpace_cons_space, goTrimSpace_idem]
      rw [show ((leadingHashCount t : Int) + 0).toNat = leadingHashCount t by
        simp]
      exact he.symm
    rw [hstable]

theorem hasPfx2_decomp {t : Line} {a b : Char}
    (h : hasPfx t [a, b] = true) : ∃ w, t = a :: b :: w := by
  cases t with
  | nil => exact Bool.noConfusion h
  | cons c cs =>
    cases cs with
    | nil =>
      simp only [hasPfx, Bool.and_eq_true] at h
      exact Bool.noConfusion h.2
    | cons d ds =>
      simp only [hasPfx, Bool.and_eq_true, decide_eq_true_eq] at h
      exact ⟨ds, by rw [h.1, h.2.1]⟩

/-- Reprocessing a bullet-branch output line emits it unchanged. -/
theorem bullet_emit_stable (opts : MarkdownOptions) (t : Line)
    (ht : goTrimSpace t = t)
    (hbu : hasPfx t ['*', ' '] = true ∨ hasPfx t ['-', ' '] = true) :
    ∀ (r2 o2 : List Line),
      cleanupLoop opts r2 false
          (('-' :: ' ' :: goTrimSpace (t.drop 2)) :: o2) =
        cleanupLoop opts (r2 ++ ['-' :: ' ' :: goTrimSpace (t.drop 2)])
          false o2 := by
  intro r2 o2
  obtain ⟨x, w, hxw⟩ : ∃ x w, t = x :: ' ' :: w := by
    cases hbu with
    | inl h => obtain ⟨w, hw⟩ := hasPfx2_decomp h; exact ⟨'*', w, hw⟩
    | inr h => obtain ⟨w, hw⟩ := hasPfx2_decomp h; exact ⟨'-', w, hw⟩
  have hdrop : t.drop 2 = w := by rw [hxw]; rfl
  have hlast : ∀ c, t.getLast? = some c → goIsSpace c = false := by
    intro c hc
    exact goTrimSpace_getLast? t (by rwa [ht])
  have hw : w ≠ [] := by
    intro hwe
    have hsp : t.getLast? = some ' ' := by rw [hxw, hwe]; rfl
    exact absurd (hlast ' ' hsp) (by decide)
  have hlw : w.getLast? = t.getLast? := by
    cases hwc : w with
    | nil => exact absurd hwc hw
    | cons w0 w' =>
      rw [hxw, hwc, List.getLast?_cons_cons, List.getLast?_cons_cons]
  have hvne : goTrimSpace (t.drop 2) ≠ [] := by
    have hd := List.getLast?_eq_getLast_of_ne_nil hw
    set d := w.getLast hw with hddef
    have hdns : goIsSpace d = false := hlast d (by rw [← hlw]; exact hd)
    have hdmem : d ∈ w := List.getLast_mem hw
    have hdv : d ∈ goTrimSpace (t.drop 2) := by
      rw [hdrop]
      exact mem_goTrimSpace_of_not_space hdmem hdns
    intro hve
    rw [hve] at hdv
    simp at hdv
  have hetrim : goTrimSpace ('-' :: ' ' :: goTrimSpace (t.drop 2)) =
      '-' :: ' ' :: goTrimSpace (t.drop 2) := by
    apply goTrimSpace_eq_self
    · intro c hc
      rw [show ('-' :: ' ' :: goTrimSpace (t.drop 2)).head? = some '-'
        from rfl] at hc
      rw [← Option.some_inj.mp hc]
      decide
    · intro c hc
      rw [List.getLast?_cons_cons] at hc
      cases hvc : goTrimSpace (t.drop 2) with
      | nil => exact absurd hvc hvne
      | cons v0 v' =>
        rw [hvc, List.getLast?_cons_cons] at hc
        exact goTrimSpace_getLast? (t.drop 2) (by rw [hvc]; exact hc)
  have hpfx : hasPfx (goTrimSpace ('-' :: ' ' :: goTrimSpace (t.drop 2)))
      ['-', ' '] = true := by
    rw [hetrim]
    show (decide ('-' = '-') && (decide (' ' = ' ') &&
      hasPfx (goTrimSpace (t.drop 2)) [])) = true
    rw [hasPfx_nil_pat]
    rfl
  rw [cleanupLoop_bullet opts r2 _ o2 (Or.inr hpfx)]
  have hemit : '-' :: ' ' ::
      goTrimSpace ((goTrimSpace ('-' :: ' ' ::
        goTrimSpace (t.drop 2))).drop 2) =
      '-' :: ' ' :: goTrimSpace (t.drop 2) := by
    rw [hetrim]
    rw [show ('-' :: ' ' :: goTrimSpace (t.drop 2)).drop 2 =
      goTrimSpace (t.drop 2) from rfl]
    rw [goTrimSpace_idem]
  rw [hemit]

/-- Reprocessing a numbered-branch output line emits it unchanged: the
rewritten line no longer matches `^\d+\.\s` (no space after the dot)
and passes through the plain branch. -/
theorem numbered_emit_stable (opts : MarkdownOptions) (ds : Line) (c : Char)
    (r : Line) (hds : ds ≠ []) (hdig : ∀ d ∈ ds, d.isDigit = true)
    (ht : goTrimSpace (ds ++ '.' :: c :: r) = ds ++ '.' :: c :: r) :
    ∀ (r2 o2 : List Line),
      cleanupLoop opts r2 false
          ((ds ++ '.' :: goTrimSpace (c :: r)) :: o2) =
        cleanupLoop opts (r2 ++ [ds ++ '.' :: goTrimSpace (c :: r)])
          false o2 := by
  intro r2 o2
  obtain ⟨d0, ds', hds0⟩ : ∃ d0 ds', ds = d0 :: ds' := by
    cases hd : ds with
    | nil => exact absurd hd hds
    | cons d0 ds' => exact ⟨d0, ds', rfl⟩
  have hd0 : d0.isDigit = true := hdig d0 (by rw [hds0]; simp)
  have hlastt : ∀ x, (ds ++ '.' :: c :: r).getLast? = some x →
      goIsSpace x = false := by
    intro x hx
    exact goTrimSpace_getLast? _ (by rwa [ht])
  have hvne : goTrimSpace (c :: r) ≠ [] := by
    have hne2 : c :: r ≠ [] := by simp
    have hd := List.getLast?_eq_getLast_of_ne_nil hne2
    set d := (c :: r).getLast hne2 with hddef
    have hdns : goIsSpace d = false := by
      apply hlastt
      rw [List.getLast?_append_of_ne_nil _ (by simp),
        List.getLast?_cons_cons]
      exact hd
    have hdmem : d ∈ c :: r := List.getLast_mem hne2
    have hdv : d ∈ goTrimSpace (c :: r) :=
      mem_goTrimSpace_of_not_space hdmem hdns
    intro hve
    rw [hve] at hdv
    simp at hdv
  -- the emitted line is trimmed
  have hetrim : goTrimSpace (ds ++ '.' :: goTrimSpace (c :: r)) =
      ds ++ '.' :: goTrimSpace (c :: r) := by
    apply goTrimSpace_eq_self
    · intro x hx
      rw [hds0, List.cons_append, List.head?_cons] at hx
      rw [← Option.some_inj.mp hx]
      exact isDigit_not_space hd0
    · intro x hx
      rw [List.getLast?_append_of_ne_nil _ (by simp)] at hx
      cases hvc : goTrimSpace (c :: r) with
      | nil => exact absurd hvc hvne
      | cons v0 v' =>
        rw [hvc, List.getLast?_cons_cons] at hx
        exact goTrimSpace_getLast? (c :: r) (by rw [hvc]; exact hx)
  -- pass-2 classification: the emitted line is plain
  have hfence : hasPfx (goTrimSpace (ds ++ '.' :: goTrimSpace (c :: r)))
      fenceMarker = false := by
    rw [hetrim, hds0, List.cons_append]
    show (decide (d0 = '`') && _) = false
    rw [decide_eq_false (isDigit_ne hd0 (by decide))]
    rfl
  have hhash : hasPfx (goTrimSpace (ds ++ '.' :: goTrimSpace (c :: r)))
      ['#'] = false := by
    rw [hetrim, hds0, List.cons_append]
    show (decide (d0 = '#') && _) = false
    rw [decide_eq_false (isDigit_ne hd0 (by decide))]
    rfl
  have hb1 : hasPfx (goTrimSpace (ds ++ '.' :: goTrimSpace (c :: r)))
      ['*', ' '] = false := by
    rw [hetrim, hds0, List.cons_append]
    show (decide (d0 = '*') && _) = false
    rw [decide_eq_false (isDigit_ne hd0 (by decide))]
    rfl
  have hb2 : hasPfx (goTrimSpace (ds ++ '.' :: goTrimSpace (c :: r)))
      ['-', ' '] = false := by
    rw [hetrim, hds0, List.cons_append]
    show (decide (d0 = '-') && _) = false
    rw [decide_eq_false (isDigit_ne hd0 (by decide))]
    rfl
  have hnum : matchesNumbered (goTrimSpace (ds ++ '.' ::
      goTrimSpace (c :: r))) = false := by
    rw [hetrim]
    unfold matchesNumbered
    simp only [takeWhile_digits_append ds (goTrimSpace (c :: r)) hdig]
    rw [List.drop_left]
    cases hvc : goTrimSpace (c :: r) with
    | nil => exact absurd hvc hvne
    | cons v0 v' =>
      have hv0 : goIsSpace v0 = false := by
        apply goTrimSpace_head? (c :: r)
        rw [hvc]
        rfl
      show (decide (ds ≠ []) &&
        (decide ('.' = '.') && isRegexSpace v0)) = false
      rw [isRegexSpace_false_of_not_space hv0]
      rw [Bool.and_false, Bool.and_false]
  have hnd : ¬(goTrimSpace (ds ++ '.' :: goTrimSpace (c :: r)) = [] ∧
      r2.getLast? = some []) := by
    intro hcc
    rw [hetrim, hds0] at hcc
    exact List.noConfusion hcc.1
  rw [cleanupLoop_plain opts r2 _ o2 hfence hhash hb1 hb2 hnum hnd, hetrim]

/-- Input-side condition for idempotence: every heading-classified line
(trimmed line starting with `'#'`, outside fences) has its `'#'`
characters only in the leading run. -/
def goodLines : Bool → List Line → Bool
  | _, [] => true
  | inCode, l :: ls =>
    if hasPfx (goTrimSpace l) fenceMarker then goodLines (!inCode) ls
    else if !inCode && hasPfx (goTrimSpace l) ['#'] then
      hashOnlyLeading (goTrimSpace l) && goodLines inCode ls
    else goodLines inCode ls

theorem goodLines_fence (l : Line) (ls : List Line) (ic : Bool)
    (hf : hasPfx (goTrimSpace l) fenceMarker = true) :
    goodLines ic (l :: ls) = goodLines (!ic) ls := by
  rw [goodLines, if_pos hf]

theorem goodLines_heading (l : Line) (ls : List Line)
    (hf : hasPfx (goTrimSpace l) fenceMarker = false)
    (hh : hasPfx (goTrimSpace l) ['#'] = true) :
    goodLines false (l :: ls) =
      (hashOnlyLeading (goTrimSpace l) && goodLines false ls) := by
  rw [goodLines, if_neg (by simp [hf]), if_pos (by rw [hh]; rfl)]

theorem goodLines_other (l : Line) (ls : List Line) (ic : Bool)
    (hf : hasPfx (goTrimSpace l) fenceMarker = false)
    (ho : ic = true ∨ hasPfx (goTrimSpace l) ['#'] = false) :
    goodLines ic (l :: ls) = goodLines ic ls := by
  rw [goodLines, if_neg (by simp [hf]), if_neg ?hcond]
  case hcond =>
    cases ho with
    | inl h => rw [h]; simp
    | inr h => rw [h]; simp

theorem emit_extract (opts : MarkdownOptions) (ls : List Line)
    (r1 : List Line) (e : Line) (ic2 : Bool) (out : List Line)
    (h : cleanupLoop opts (r1 ++ [e]) ic2 ls = some (r1 ++ out)) :
    ∃ o, out = e :: o ∧
      cleanupLoop opts (r1 ++ [e]) ic2 ls = some ((r1 ++ [e]) ++ o) := by
  obtain ⟨o, ho⟩ := cleanupLoop_extends opts ls (r1 ++ [e]) ic2 _ h
  have ho2 : r1 ++ out = r1 ++ ([e] ++ o) := by
    rw [← List.append_assoc]
    exact ho
  have hout : out = e :: o := by
    have := List.append_cancel_left ho2
    simpa using this
  exact ⟨o, hout, by rw [h, ho]⟩

/-- Main idempotence induction: with zero adjustment and good input,
re-running the loop over its own output reproduces that output, for any
pair of accumulators agreeing on blank-last state. -/
theorem cleanup_idem_lines (opts : MarkdownOptions)
    (h0 : opts.HeaderLevelAdjust = 0) :
    ∀ (ls : List Line) (inCode : Bool) (r1 r2 out : List Line),
      goodLines inCode ls = true →
      ((r1.getLast? = some []) ↔ (r2.getLast? = some [])) →
      cleanupLoop opts r1 inCode ls = some (r1 ++ out) →
      cleanupLoop opts r2 inCode out = some (r2 ++ out) := by
  intro ls
  induction ls with
  | nil =>
    intro inCode r1 r2 out _ _ h
    rw [cleanupLoop_nil] at h
    have h1 : r1 ++ [] = r1 ++ out := by
      rw [List.append_nil]
      exact Option.some_inj.mp h
    have hout : out = [] := (List.append_cancel_left h1).symm
    rw [hout, cleanupLoop_nil, List.append_nil]
  | cons l ls ih =>
    intro inCode r1 r2 out hg hbe h
    by_cases h1 : goTrimSpace l = [] ∧ r1 ≠ [] ∧ r1.getLast? = some []
    · rw [cleanupLoop_drop opts r1 inCode l ls h1.1 h1.2.2] at h
      have hf : hasPfx (goTrimSpace l) fenceMarker = false := by
        rw [h1.1]; rfl
      have hh : hasPfx (goTrimSpace l) ['#'] = false := by
        rw [h1.1]; rfl
      rw [goodLines_other l ls inCode hf
        (by cases inCode
            · exact Or.inr hh
            · exact Or.inl rfl)] at hg
      exact ih inCode r1 r2 out hg hbe h
    · by_cases h2 : hasPfx (goTrimSpace l) fenceMarker = true
      · rw [cleanupLoop_fence opts r1 inCode l ls h2] at h
        obtain ⟨o, ho, h'⟩ :=
          emit_extract opts ls r1 (goTrimSpace l) (!inCode) out h
        subst ho
        rw [goodLines_fence l ls inCode h2] at hg
        rw [cleanupLoop_fence opts r2 inCode (goTrimSpace l) o
          (by rw [goTrimSpace_idem]; exact h2), goTrimSpace_idem l]
        have hbe' : ((r1 ++ [goTrimSpace l]).getLast? = some []) ↔
            ((r2 ++ [goTrimSpace l]).getLast? = some []) := by
          rw [List.getLast?_concat, List.getLast?_concat]
        rw [ih (!inCode) (r1 ++ [goTrimSpace l]) (r2 ++ [goTrimSpace l]) o
          hg hbe' h', List.append_assoc, List.singleton_append]
      · have h2f : hasPfx (goTrimSpace l) fenceMarker = false :=
          Bool.not_eq_true _ ▸ eq_false_of_ne_true h2
        cases inCode with
        | true =>
          rw [cleanupLoop_passthrough opts r1 l ls h2f
            (guard_reduce h1)] at h
          obtain ⟨o, ho, h'⟩ :=
            emit_extract opts ls r1 (goTrimSpace l) true out h
          subst ho
          rw [goodLines_other l ls true h2f (Or.inl rfl)] at hg
          rw [cleanupLoop_passthrough opts r2 (goTrimSpace l) o
            (by rw [goTrimSpace_idem]; exact h2f)
            (by
              rw [goTrimSpace_idem]
              intro hcc
              exact guard_reduce h1 ⟨hcc.1, hbe.mpr hcc.2⟩),
            goTrimSpace_idem l]
          have hbe' : ((r1 ++ [goTrimSpace l]).getLast? = some []) ↔
              ((r2 ++ [goTrimSpace l]).getLast? = some []) := by
            rw [List.getLast?_concat, List.getLast?_concat]
          rw [ih true (r1 ++ [goTrimSpace l]) (r2 ++ [goTrimSpace l]) o
            hg hbe' h', List.append_assoc, List.singleton_append]
        | false =>
          cases h3 : hasPfx (goTrimSpace l) ['#'] with
          | true =>
            by_cases h4 : (countHash (goTrimSpace l) : Int) +
                opts.HeaderLevelAdjust < 0
            · rw [cleanupLoop_heading_panic opts r1 l ls h3 h4] at h
              exact Option.noConfusion h
            · rw [cleanupLoop_heading' opts r1 l ls h3 (not_lt.mp h4)] at h
              obtain ⟨o, ho, h'⟩ := emit_extract opts ls r1
                (emittedHeading opts (goTrimSpace l)) false out h
              subst ho
              rw [goodLines_heading l ls h2f h3] at hg
              simp only [Bool.and_eq_true] at hg
              obtain ⟨hol, hg'⟩ := hg
              rw [heading_emit_stable opts h0 (goTrimSpace l) h3 hol r2 o]
              have hbe' :
                  ((r1 ++ [emittedHeading opts (goTrimSpace l)]).getLast? =
                    some []) ↔
                  ((r2 ++ [emittedHeading opts (goTrimSpace l)]).getLast? =
                    some []) := by
                rw [List.getLast?_concat, List.getLast?_concat]
              rw [ih false (r1 ++ [emittedHeading opts (goTrimSpace l)])
                (r2 ++ [emittedHeading opts (goTrimSpace l)]) o
                hg' hbe' h', List.append_assoc, List.singleton_append]
          | false =>
            have hgother : goodLines false (l :: ls) = goodLines false ls :=
              goodLines_other l ls false h2f (Or.inr h3)
            rw [hgother] at hg
            cases h5a : hasPfx (goTrimSpace l) ['*', ' '] with
            | true =>
              rw [cleanupLoop_bullet opts r1 l ls (Or.inl h5a)] at h
              obtain ⟨o, ho, h'⟩ := emit_extract opts ls r1
                ('-' :: ' ' :: goTrimSpace ((goTrimSpace l).drop 2))
                false out h
              subst ho
              rw [bullet_emit_stable opts (goTrimSpace l)
                (goTrimSpace_idem l) (Or.inl h5a) r2 o]
              have hbe' := Iff.intro
                (fun hx : (r1 ++ ['-' :: ' ' ::
                    goTrimSpace ((goTrimSpace l).drop 2)]).getLast? =
                    some [] => by
                  rw [List.getLast?_concat] at hx
                  rw [List.getLast?_concat]
                  exact hx)
                (fun hx : (r2 ++ ['-' :: ' ' ::
                    goTrimSpace ((goTrimSpace l).drop 2)]).getLast? =
                    some [] => by
                  rw [List.getLast?_concat] at hx
                  rw [List.getLast?_concat]
                  exact hx)
              rw [ih false _ _ o hg hbe' h', List.append_assoc, List.singleton_append]
            | false =>
              cases h5b : hasPfx (goTrimSpace l) ['-', ' '] with
              | true =>
                rw [cleanupLoop_bullet opts r1 l ls (Or.inr h5b)] at h
                obtain ⟨o, ho, h'⟩ := emit_extract opts ls r1
                  ('-' :: ' ' :: goTrimSpace ((goTrimSpace l).drop 2))
                  false out h
                subst ho
                rw [bullet_emit_stable opts (goTrimSpace l)
                  (goTrimSpace_idem l) (Or.inr h5b) r2 o]
                have hbe' := Iff.intro
                  (fun hx : (r1 ++ ['-' :: ' ' ::
                      goTrimSpace ((goTrimSpace l).drop 2)]).getLast? =
                      some [] => by
                    rw [List.getLast?_concat] at hx
                    rw [List.getLast?_concat]
                    exact hx)
                  (fun hx : (r2 ++ ['-' :: ' ' ::
                      goTrimSpace ((goTrimSpace l).drop 2)]).getLast? =
                      some [] => by
                    rw [List.getLast?_concat] at hx
                    rw [List.getLast?_concat]
                    exact hx)
                rw [ih false _ _ o hg hbe' h', List.append_assoc, List.singleton_append]
              | false =>
                cases h6 : matchesNumbered (goTrimSpace l) with
                | true =>
                  obtain ⟨ds, c, r, hdec, hdne, hdig, heq⟩ :=
                    cleanupLoop_numbered opts r1 l ls h6
                  rw [heq] at h
                  obtain ⟨o, ho, h'⟩ := emit_extract opts ls r1
                    (ds ++ '.' :: goTrimSpace (c :: r)) false out h
                  subst ho
                  have htr : goTrimSpace (ds ++ '.' :: c :: r) =
                      ds ++ '.' :: c :: r := by
                    rw [← hdec]
                    exact goTrimSpace_idem l
                  rw [numbered_emit_stable opts ds c r hdne hdig htr r2 o]
                  have hbe' := Iff.intro
                    (fun hx : (r1 ++ [ds ++ '.' ::
                        goTrimSpace (c :: r)]).getLast? = some [] => by
                      rw [List.getLast?_concat] at hx
                      rw [List.getLast?_concat]
                      exact hx)
                    (fun hx : (r2 ++ [ds ++ '.' ::
                        goTrimSpace (c :: r)]).getLast? = some [] => by
                      rw [List.getLast?_concat] at hx
                      rw [List.getLast?_concat]
                      exact hx)
                  rw [ih false _ _ o hg hbe' h', List.append_assoc, List.singleton_append]
                | false =>
                  rw [cleanupLoop_plain opts r1 l ls h2f h3 h5a h5b h6
                    (guard_reduce h1)] at h
                  obtain ⟨o, ho, h'⟩ :=
                    emit_extract opts ls r1 (goTrimSpace l) false out h
                  subst ho
                  rw [cleanupLoop_plain opts r2 (goTrimSpace l) o
                    (by rw [goTrimSpace_idem]; exact h2f)
                    (by rw [goTrimSpace_idem]; exact h3)
                    (by rw [goTrimSpace_idem]; exact h5a)
                    (by rw [goTrimSpace_idem]; exact h5b)
                    (by rw [goTrimSpace_idem]; exact h6)
                    (by
                      rw [goTrimSpace_idem]
                      intro hcc
                      exact guard_reduce h1 ⟨hcc.1, hbe.mpr hcc.2⟩),
                    goTrimSpace_idem l]
                  have hbe' : ((r1 ++ [goTrimSpace l]).getLast? =
                      some []) ↔
                      ((r2 ++ [goTrimSpace l]).getLast? = some []) := by
                    rw [List.getLast?_concat, List.getLast?_concat]
                  rw [ih false (r1 ++ [goTrimSpace l])
                    (r2 ++ [goTrimSpace l]) o hg hbe' h',
                    List.append_assoc, List.singleton_append]

/-- C6, counterexample: with the default options (`HeaderLevelAdjust =
1`) the already-normalized text `"# x"` (bullets unified, no blank
runs) maps to `"## x"`, and a second cleanup maps that to `"### x"`:
the heading branch re-shifts levels on every run, so cleanup is not
idempotent as claimed. -/
theorem C6_idempotence_counterexample :
    cleanupMarkdownText DefaultMarkdownOptions "# x" = some "## x" ∧
    cleanupMarkdownText DefaultMarkdownOptions "## x" = some "### x" ∧
    some ("### x" : String) ≠ some "## x" := by
  refine ⟨by decide, by decide, by decide⟩

/-- C6, amended: the cleanup is idempotent when `HeaderLevelAdjust = 0`
and every heading-classified input line carries its `'#'` characters
only in its leading run (`goodLines`): then
`cleanup(cleanup(T)) = cleanup(T)`.  With a nonzero adjustment (the
default is 1) heading levels shift again on every run, and a `'#'`
inside a heading's title text also breaks idempotence, because the code
counts all `'#'`s in the line. -/
theorem C6_cleanup_idempotent (opts : MarkdownOptions)
    (h0 : opts.HeaderLevelAdjust = 0) (text out : String)
    (hg : goodLines false (splitLines text.data) = true)
    (h : cleanupMarkdownText opts text = some out) :
    cleanupMarkdownText opts out = some out := by
  unfold cleanupMarkdownText at h ⊢
  obtain ⟨res, hres, hout⟩ := Option.map_eq_some'.mp h
  have hsne := splitLines_ne_nil text.data
  obtain ⟨l0, ls0, hls⟩ : ∃ l0 ls0, splitLines text.data = l0 :: ls0 := by
    cases hs : splitLines text.data with
    | nil => exact absurd hs hsne
    | cons a b => exact ⟨a, b, rfl⟩
  have hresne : res ≠ [] := by
    apply cleanupLoop_ne_nil opts l0 ls0 false res
    rw [← hls]
    exact hres
  have hresnl : ∀ l ∈ res, ('\n' : Char) ∉ l :=
    cleanupLoop_no_newline opts (splitLines text.data) [] false res
      (splitLines_no_newline text.data) (by intro l hl; simp at hl) hres
  have hdata : out.data = joinLines res := by rw [← hout]
  have hsplit : splitLines out.data = res := by
    rw [hdata]
    exact splitLines_joinLines res hresne hresnl
  have hmain := cleanup_idem_lines opts h0 (splitLines text.data) false
    [] [] res hg Iff.rfl (by rw [List.nil_append]; exact hres)
  rw [List.nil_append] at hmain
  rw [hsplit, hmain]
  rw [show Option.map (fun r => String.mk (joinLines r)) (some res) =
    some (String.mk (joinLines res)) from rfl]
  rw [hout]

/-- C6 witness: with zero adjustment, cleaning an already-cleaned text
is a no-op. -/
theorem C6_cleanup_idempotent_witness :
    cleanupMarkdownText ⟨0, true, true⟩ "# x\n\n\n- a" =
      some "# x\n\n- a" ∧
    cleanupMarkdownText ⟨0, true, true⟩ "# x\n\n- a" =
      some "# x\n\n- a" := by
  constructor
  · decide
  · exact C6_cleanup_idempotent ⟨0, true, true⟩ rfl "# x\n\n\n- a"
      "# x\n\n- a" (by decide) (by decide)

/-- C2 witness: a fenced region containing a heading-looking and a
bullet-looking line; both pass through trimmed and unrewritten. -/
theorem C2_fence_sanctity_witness :
    cleanupLoop DefaultMarkdownOptions [] false
        ("```".data :: (["# h".data, "* b".data] ++ "```".data :: [])) =
      cleanupLoop DefaultMarkdownOptions
        (([] ++ [goTrimSpace "```".data]) ++
          fencePass (some (goTrimSpace "```".data))
            ["# h".data, "* b".data] ++ [goTrimSpace "```".data])
        false [] :=
  C2_fence_sanctity DefaultMarkdownOptions [] "```".data "```".data
    ["# h".data, "* b".data] [] (by decide) (by decide) (by decide)

end RemarkableSync
